import Mathlib

/-!
Verification development for the rqbit torrent download engine
(`crates/librqbit/src/torrent_state.rs` and `crates/librqbit/src/peer_state.rs`).

The Rust code is shallowly embedded: machine integers (`u32`/`u64` atomics)
become `Nat` with explicit wrap-around (`% 2^32` / `% 2^64`) at every update,
`HashMap`/`DashMap` become association lists, `HashSet` becomes a list with
membership semantics, `Instant` becomes a `Nat` millisecond timestamp, and
`f64` duration arithmetic in the piece-stealing heuristic is modelled exactly
over `ℚ`.  Tokio machinery (channels, semaphores, `Notify`) carries no data
relevant to the verified properties; spawned tasks are modelled by returning
a description of what was spawned, and the body of the spawned reconnect
timer is embedded as its own function.
-/

/-! ## Machine-integer helpers -/

def U32_MOD : Nat := 2 ^ 32

def U64_MOD : Nat := 2 ^ 64

/-- Wrapping `u32` increment (`fetch_add(1, Relaxed)` on `AtomicU32`). -/
def addU32 (a b : Nat) : Nat := (a + b) % U32_MOD

/-- Wrapping `u32` decrement (`fetch_sub(1, Relaxed)` on `AtomicU32`); exact
for every `u32` operand `b < 2^32`. -/
def subU32 (a b : Nat) : Nat := (a + U32_MOD - b) % U32_MOD

/-- Wrapping `u64` addition (`fetch_add` on `AtomicU64`). -/
def addU64 (a b : Nat) : Nat := (a + b) % U64_MOD

/-- Wrapping `u64` subtraction: Rust release-mode `a - b` on `u64`; exact for
every `u64` operand `b < 2^64`. -/
def subU64 (a b : Nat) : Nat := (a + U64_MOD - b) % U64_MOD


/-! ## Association-list helpers (model of `HashMap<K, V>`) -/

/-- Lookup in an association list (`HashMap::get`). -/
def alistLookup {α : Type} (k : Nat) (l : List (Nat × α)) : Option α :=
  (l.find? (fun kv => kv.1 == k)).map (·.2)

/-- Remove a key (`HashMap::remove`). -/
def alistErase {α : Type} (k : Nat) (l : List (Nat × α)) : List (Nat × α) :=
  l.filter (fun kv => kv.1 != k)

/-- Insert, replacing any existing binding (`HashMap::insert`). -/
def alistInsert {α : Type} (k : Nat) (v : α) (l : List (Nat × α)) : List (Nat × α) :=
  (k, v) :: alistErase k l

/-- Keys of an association list. -/
def alistKeys {α : Type} (l : List (Nat × α)) : List Nat :=
  l.map (·.1)

/-- Rust `Iterator::max_by_key`: the LAST element attaining the maximum key. -/
def lastMaxBy {α : Type} (f : α → Nat) : List α → Option α
  | [] => none
  | x :: xs =>
    match lastMaxBy f xs with
    | none => some x
    | some y => if f y < f x then some x else some y


/-! ## Spec-modelled external capabilities

The crate files for `Lengths` (librqbit_core) and `ChunkTracker`
(`chunk_tracker.rs`) are not part of the two source files under review; they
are modelled from the specification's contracts (spec §6). -/

/-- Modelled from the spec: the `Lengths` capability of librqbit_core
(`validate_piece_index`, `piece_length`, chunk geometry).  `piece_len` gives
the byte length of each piece, `chunk_len` the standard chunk size. -/
structure Lengths where
  total_pieces : Nat
  piece_len : Nat → Nat
  chunk_len : Nat

/-- Modelled from the spec: `Lengths::validate_piece_index(u32)` — `Some`
exactly when the index is in range. -/
def Lengths.validate_piece_index (l : Lengths) (n : Nat) : Option Nat :=
  if n < l.total_pieces then some n else none

/-- Number of chunks of a piece (ceiling division of its length). -/
def Lengths.num_chunks (l : Lengths) (p : Nat) : Nat :=
  (l.piece_len p + l.chunk_len - 1) / l.chunk_len

/-- Modelled from the spec: librqbit_core `ChunkInfo` (piece index, chunk
index within the piece, byte offset, chunk size). -/
structure ChunkInfo where
  piece_index : Nat
  chunk_index : Nat
  offset : Nat
  size : Nat
deriving DecidableEq, Repr

/-- Modelled from the spec: `Lengths::chunk_info_from_received_piece
(piece, begin, length)` — validates the piece index and chunk geometry of a
received Piece message and produces the `ChunkInfo`. -/
def Lengths.chunk_info_from_received_piece (l : Lengths) (index begin_ len : Nat) :
    Option ChunkInfo :=
  if index < l.total_pieces ∧ begin_ % l.chunk_len = 0 ∧ begin_ < l.piece_len index ∧
      len = min l.chunk_len (l.piece_len index - begin_) ∧ 0 < len then
    some ⟨index, begin_ / l.chunk_len, begin_, len⟩
  else none

/-- `ChunkMarkingResult` returned by `ChunkTracker::mark_chunk_downloaded`. -/
inductive ChunkMarkingResult where
  | completed
  | previouslyCompleted
  | notCompleted
deriving DecidableEq, Repr

/-- Modelled from the spec: the `ChunkTracker` capability
(`chunk_tracker.rs` is not under `src/`).  It tracks which chunks of which
pieces are needed, which pieces are reserved, and which pieces are verified
(spec §2 item 1 and §6):
* `neededPieces` — the queue of still-needed piece indices yielded by
  `iter_needed_pieces()`;
* `reservedPieces` — pieces marked reserved by `reserve_needed_piece`;
* `neededChunks` — the chunk-level needed pool: `(piece, chunk)` pairs not
  yet downloaded;
* `havePieces` — pieces that passed verification (`mark_piece_downloaded`). -/
structure ChunkTracker where
  neededPieces : List Nat
  reservedPieces : List Nat
  neededChunks : List (Nat × Nat)
  havePieces : List Nat
deriving DecidableEq, Repr

/-- Modelled from the spec: `ChunkTracker::iter_needed_pieces()`. -/
def ChunkTracker.iter_needed_pieces (t : ChunkTracker) : List Nat :=
  t.neededPieces

/-- Modelled from the spec: whether the tracker reports a piece reserved
(invariant I1's `chunks.reserved(p)`). -/
def ChunkTracker.reserved (t : ChunkTracker) (p : Nat) : Prop :=
  p ∈ t.reservedPieces

instance (t : ChunkTracker) (p : Nat) : Decidable (t.reserved p) := by
  unfold ChunkTracker.reserved; infer_instance

/-- Modelled from the spec: whether the tracker reports a chunk as still
needed (the chunk is in the needed pool). -/
def ChunkTracker.chunkNeeded (t : ChunkTracker) (p c : Nat) : Prop :=
  (p, c) ∈ t.neededChunks

instance (t : ChunkTracker) (p c : Nat) : Decidable (t.chunkNeeded p c) := by
  unfold ChunkTracker.chunkNeeded; infer_instance

/-- Modelled from the spec: `ChunkTracker::reserve_needed_piece(p)` — the
piece leaves the needed queue and becomes reserved. -/
def ChunkTracker.reserve_needed_piece (t : ChunkTracker) (p : Nat) : ChunkTracker :=
  { t with
    neededPieces := t.neededPieces.filter (fun n => n != p)
    reservedPieces := p :: t.reservedPieces }

/-- Modelled from the spec: `ChunkTracker::mark_chunk_request_cancelled(p, c)`
— the cancelled chunk is returned to the needed pool (spec §4.4 step 2). -/
def ChunkTracker.mark_chunk_request_cancelled (t : ChunkTracker) (p c : Nat) : ChunkTracker :=
  { t with neededChunks := (p, c) :: t.neededChunks }

/-- Whether every chunk of piece `p` is absent from the needed pool (the
piece's data is complete). -/
def ChunkTracker.pieceComplete (l : Lengths) (t : ChunkTracker) (p : Nat) : Bool :=
  (List.range (l.num_chunks p)).all (fun c => !t.neededChunks.contains (p, c))

/-- Modelled from the spec: `ChunkTracker::mark_chunk_downloaded` — `none` on
bogus indices; `PreviouslyCompleted` if the piece was already verified or
complete; otherwise the chunk leaves the needed pool and the result says
whether that completed the piece.  Returns the result together with the
updated tracker. -/
def ChunkTracker.mark_chunk_downloaded (l : Lengths) (t : ChunkTracker) (p c : Nat) :
    Option (ChunkMarkingResult × ChunkTracker) :=
  if p ≥ l.total_pieces ∨ c ≥ l.num_chunks p then none
  else if p ∈ t.havePieces ∨ t.pieceComplete l p then some (.previouslyCompleted, t)
  else
    let t' := { t with neededChunks := t.neededChunks.filter (fun pc => pc != (p, c)) }
    if t'.pieceComplete l p then some (.completed, t') else some (.notCompleted, t')

/-- Modelled from the spec: `ChunkTracker::mark_piece_downloaded(p)` — the
piece is recorded as verified and is no longer reserved. -/
def ChunkTracker.mark_piece_downloaded (t : ChunkTracker) (p : Nat) : ChunkTracker :=
  { t with
    havePieces := p :: t.havePieces
    reservedPieces := t.reservedPieces.filter (fun n => n != p) }

/-- Modelled from the spec: `ChunkTracker::mark_piece_broken(p)` — all chunks
of the piece re-enter the needed pool and the piece is re-queued. -/
def ChunkTracker.mark_piece_broken (l : Lengths) (t : ChunkTracker) (p : Nat) : ChunkTracker :=
  { t with
    neededChunks := (List.range (l.num_chunks p)).map (fun c => (p, c)) ++ t.neededChunks
    neededPieces := p :: t.neededPieces.filter (fun n => n != p)
    reservedPieces := t.reservedPieces.filter (fun n => n != p) }

/-! ## `peer_state.rs`: per-peer state, counters, aggregate counters -/

/-- Per-peer atomic counters (`PeerCounters` in `peer_state.rs`): eight
counters. `fetched_bytes`, `total_time_connecting_ms` and
`downloaded_and_checked_bytes` are `u64`; the rest are `u32`. -/
structure PeerCounters where
  fetched_bytes : Nat
  total_time_connecting_ms : Nat
  connection_attempts : Nat
  connections : Nat
  errors : Nat
  fetched_chunks : Nat
  downloaded_and_checked_pieces : Nat
  downloaded_and_checked_bytes : Nat
deriving DecidableEq, Repr

instance : Inhabited PeerCounters := ⟨⟨0, 0, 0, 0, 0, 0, 0, 0⟩⟩

/-- `LivePeerState` in `peer_state.rs`.  The `tx` writer channel handle is an
opaque tokio channel carrying no verified data and is not modelled. -/
structure LivePeerState where
  peer_id : Nat
  peer_interested : Bool
  bitfield : List Bool
  inflight_requests : List (Nat × Nat)
deriving DecidableEq, Repr

/-- `LivePeerState::new(peer_id, tx)`. -/
def LivePeerState.new (peer_id : Nat) : LivePeerState :=
  ⟨peer_id, false, [], []⟩

/-- `LivePeerState::has_full_torrent(total_pieces)`: the bitfield slice
`0..total_pieces` exists and is all ones. -/
def LivePeerState.has_full_torrent (l : LivePeerState) (total_pieces : Nat) : Bool :=
  if total_pieces ≤ l.bitfield.length then (l.bitfield.take total_pieces).all (fun b => b)
  else false

/-- `PeerState` in `peer_state.rs`.  The `Connecting` variant's channel handle
is not modelled (opaque tokio channel). -/
inductive PeerState where
  | queued
  | connecting
  | live (l : LivePeerState)
  | dead
  | notNeeded
deriving DecidableEq, Repr

instance : Inhabited PeerState := ⟨.queued⟩

/-- `PeerState::name`. -/
def PeerState.name : PeerState → String
  | .queued => "queued"
  | .connecting => "connecting"
  | .live _ => "live"
  | .dead => "dead"
  | .notNeeded => "not needed"

/-- `PeerState::take_live_no_counters`. -/
def PeerState.take_live_no_counters : PeerState → Option LivePeerState
  | .live l => some l
  | _ => none

/-- A peer record (`Peer` in `peer_state.rs`).  The exponential-backoff state
lives in the external `backoff` crate; its `next_backoff()` results enter the
model as inputs. -/
structure Peer where
  state : PeerState
  counters : PeerCounters
deriving DecidableEq, Repr

instance : Inhabited Peer := ⟨⟨default, default⟩⟩

/-- `AggregatePeerStatsAtomic`: one atomic `u32` per state, plus `seen`. -/
structure AggregatePeerStatsAtomic where
  queued : Nat
  connecting : Nat
  live : Nat
  seen : Nat
  dead : Nat
  not_needed : Nat
deriving DecidableEq, Repr

instance : Inhabited AggregatePeerStatsAtomic := ⟨⟨0, 0, 0, 0, 0, 0⟩⟩

/-- `AggregatePeerStatsAtomic::inc` — bumps the counter selected by the
state's variant (`counter(state)` + `atomic_inc`). -/
def AggregatePeerStatsAtomic.inc (s : AggregatePeerStatsAtomic) (st : PeerState) :
    AggregatePeerStatsAtomic :=
  match st with
  | .connecting => { s with connecting := addU32 s.connecting 1 }
  | .live _ => { s with live := addU32 s.live 1 }
  | .queued => { s with queued := addU32 s.queued 1 }
  | .dead => { s with dead := addU32 s.dead 1 }
  | .notNeeded => { s with not_needed := addU32 s.not_needed 1 }

/-- `AggregatePeerStatsAtomic::dec` (`counter(state)` + `atomic_dec`,
a wrapping `u32` `fetch_sub`). -/
def AggregatePeerStatsAtomic.dec (s : AggregatePeerStatsAtomic) (st : PeerState) :
    AggregatePeerStatsAtomic :=
  match st with
  | .connecting => { s with connecting := subU32 s.connecting 1 }
  | .live _ => { s with live := subU32 s.live 1 }
  | .queued => { s with queued := subU32 s.queued 1 }
  | .dead => { s with dead := subU32 s.dead 1 }
  | .notNeeded => { s with not_needed := subU32 s.not_needed 1 }

/-- `AggregatePeerStatsAtomic::incdec(old, new)`: decrement the old state's
counter, then increment the new state's counter. -/
def AggregatePeerStatsAtomic.incdec (s : AggregatePeerStatsAtomic)
    (old new : PeerState) : AggregatePeerStatsAtomic :=
  (s.dec old).inc new

/-- `PeerStatsFilterState` of the snapshot module. -/
inductive PeerStatsFilterState where
  | all
  | liveOnly
deriving DecidableEq, Repr

/-- `PeerStatsFilterState::matches`. -/
def PeerStatsFilterState.matches (f : PeerStatsFilterState) (s : PeerState) : Bool :=
  match f, s with
  | .all, _ => true
  | .liveOnly, .live _ => true
  | .liveOnly, _ => false

/-! ## `torrent_state.rs`: shared state and the torrent engine -/

/-- `InflightPiece`: who a piece is currently assigned to and when the
assignment started (`Instant` as a millisecond timestamp). -/
structure InflightPiece where
  peer : Nat
  started : Nat
deriving DecidableEq, Repr

/-- `TorrentStateLocked`: the chunk tracker plus the in-flight piece map,
behind the single shared `RwLock`. -/
structure TorrentStateLocked where
  chunks : ChunkTracker
  inflight_pieces : List (Nat × InflightPiece)
deriving DecidableEq, Repr

/-- `AtomicStats`: the global `u64` counters of `TorrentState`. -/
structure AtomicStats where
  have_bytes : Nat
  downloaded_and_checked_bytes : Nat
  downloaded_and_checked_pieces : Nat
  uploaded_bytes : Nat
  fetched_bytes : Nat
  total_piece_download_ms : Nat
deriving DecidableEq, Repr

instance : Inhabited AtomicStats := ⟨⟨0, 0, 0, 0, 0, 0⟩⟩

/-- `AtomicStats::average_piece_download_time`, in seconds
(`t as f64 / d as f64 / 1000`), modelled exactly over `ℚ`. -/
def AtomicStats.average_piece_download_time (s : AtomicStats) : Option ℚ :=
  if s.downloaded_and_checked_pieces = 0 then none
  else some ((s.total_piece_download_ms : ℚ) / (s.downloaded_and_checked_pieces : ℚ) / 1000)

/-- `StatsSnapshot` (the `time : Instant` field is not modelled).  The
`peer_stats` field holds the loaded values of the aggregate atomics. -/
structure StatsSnapshot where
  have_bytes : Nat
  downloaded_and_checked_bytes : Nat
  downloaded_and_checked_pieces : Nat
  fetched_bytes : Nat
  uploaded_bytes : Nat
  initially_needed_bytes : Nat
  remaining_bytes : Nat
  total_bytes : Nat
  total_piece_download_ms : Nat
  peer_stats : AggregatePeerStatsAtomic
deriving DecidableEq, Repr

/-- The whole engine state (`TorrentState` plus its `PeerStates` registry):
`registry`/`agg` model the `DashMap` and `AggregatePeerStatsAtomic` of
`PeerStates`, `locked` the `RwLock<TorrentStateLocked>`, `stats` the global
atomics, `queue` the admission queue (`peer_queue_tx`), and `writes` is a
ghost log of the chunk disk writes performed by `FileOps::write_chunk`. -/
structure System where
  lengths : Lengths
  registry : List (Nat × Peer)
  agg : AggregatePeerStatsAtomic
  locked : TorrentStateLocked
  stats : AtomicStats
  needed_bytes : Nat
  have_plus_needed_bytes : Nat
  queue : List Nat
  writes : List (Nat × Nat)

/-- Update one registry entry in place (`DashMap::get_mut` + mutation). -/
def registryModify (reg : List (Nat × Peer)) (addr : Nat) (f : Peer → Peer) :
    List (Nat × Peer) :=
  reg.map (fun kv => if kv.1 == addr then (kv.1, f kv.2) else kv)

/-- `PeerStates::add_if_not_seen(addr)`: atomic first-insert; on first
sighting inserts a default (Queued) record and bumps the `queued` and `seen`
aggregate counters.  Returns whether the peer was newly inserted. -/
def add_if_not_seen (sys : System) (addr : Nat) : System × Bool :=
  match alistLookup addr sys.registry with
  | some _ => (sys, false)
  | none =>
    ({ sys with
        registry := (addr, (default : Peer)) :: sys.registry
        agg := { sys.agg with
          queued := addU32 sys.agg.queued 1
          seen := addU32 sys.agg.seen 1 } }, true)

/-- `TorrentState::add_peer_if_not_seen(addr)`: `add_if_not_seen` plus a push
onto the admission queue on first sighting. -/
def add_peer_if_not_seen (sys : System) (addr : Nat) : System × Bool :=
  let r := add_if_not_seen sys addr
  if r.2 then ({ r.1 with queue := r.1.queue ++ [addr] }, true) else r

/-- `PeerStates::drop_peer(handle)`: remove the record and decrement the
aggregate counter of whatever state it was in. -/
def drop_peer (sys : System) (addr : Nat) : System × Option Peer :=
  match alistLookup addr sys.registry with
  | none => (sys, none)
  | some p =>
    ({ sys with
        registry := alistErase addr sys.registry
        agg := sys.agg.dec p.state }, some p)

/-- `PeerStateNoMut::set(new, counters)` reached through
`with_peer_mut`: overwrite the state and run `incdec(old, new)`.  Returns the
previous state (`None` when the peer is absent, in which case nothing
happens). -/
def sys_set_state (sys : System) (addr : Nat) (new : PeerState) :
    System × Option PeerState :=
  match alistLookup addr sys.registry with
  | none => (sys, none)
  | some p =>
    ({ sys with
        registry := registryModify sys.registry addr (fun q => { q with state := new })
        agg := sys.agg.incdec p.state new }, some p.state)

/-- Bump the per-peer atomic counters held by the handler (the `Arc` in the
registry record). -/
def update_peer_counters (sys : System) (addr : Nat) (f : PeerCounters → PeerCounters) :
    System :=
  { sys with registry := registryModify sys.registry addr (fun q => { q with counters := f q.counters }) }

/-- `TorrentState::get_downloaded_bytes`. -/
def System.get_downloaded_bytes (sys : System) : Nat :=
  sys.stats.downloaded_and_checked_bytes

/-- `TorrentState::get_left_to_download_bytes`:
`self.needed_bytes - self.get_downloaded_bytes()`, an unchecked `u64`
subtraction. -/
def System.get_left_to_download_bytes (sys : System) : Nat :=
  subU64 sys.needed_bytes sys.get_downloaded_bytes

/-- `TorrentState::is_finished`. -/
def System.is_finished (sys : System) : Bool :=
  sys.get_left_to_download_bytes == 0

/-- `TorrentState::stats_snapshot` (`remaining` is the same unchecked `u64`
subtraction). -/
def System.stats_snapshot (sys : System) : StatsSnapshot :=
  { have_bytes := sys.stats.have_bytes
    downloaded_and_checked_bytes := sys.stats.downloaded_and_checked_bytes
    downloaded_and_checked_pieces := sys.stats.downloaded_and_checked_pieces
    fetched_bytes := sys.stats.fetched_bytes
    uploaded_bytes := sys.stats.uploaded_bytes
    total_bytes := sys.have_plus_needed_bytes
    initially_needed_bytes := sys.needed_bytes
    remaining_bytes := subU64 sys.needed_bytes sys.stats.downloaded_and_checked_bytes
    total_piece_download_ms := sys.stats.total_piece_download_ms
    peer_stats := sys.agg }

/-! ### The per-peer stats snapshot module (`peer_stats_snapshot`) -/

/-- `peer_stats_snapshot::PeerCounters` (named `SnapshotPeerCounters` here to
avoid clashing with the atomic `PeerCounters`): the counters actually
serialized into the per-peer snapshot. -/
structure SnapshotPeerCounters where
  fetched_bytes : Nat
  total_time_connecting_ms : Nat
  connection_attempts : Nat
  connections : Nat
  errors : Nat
  fetched_chunks : Nat
  downloaded_and_checked_pieces : Nat
deriving DecidableEq, Repr

/-- `impl From<&peer_state::PeerCounters> for peer_stats_snapshot::PeerCounters`. -/
def SnapshotPeerCounters.ofCounters (c : PeerCounters) : SnapshotPeerCounters :=
  { fetched_bytes := c.fetched_bytes
    total_time_connecting_ms := c.total_time_connecting_ms
    connection_attempts := c.connection_attempts
    connections := c.connections
    errors := c.errors
    fetched_chunks := c.fetched_chunks
    downloaded_and_checked_pieces := c.downloaded_and_checked_pieces }

/-- `peer_stats_snapshot::PeerStats`: snapshot counters plus the state name. -/
structure SnapshotPeerStats where
  counters : SnapshotPeerCounters
  state : String
deriving DecidableEq, Repr

/-- `impl From<&peer_state::Peer> for peer_stats_snapshot::PeerStats`. -/
def SnapshotPeerStats.ofPeer (p : Peer) : SnapshotPeerStats :=
  { counters := SnapshotPeerCounters.ofCounters p.counters
    state := p.state.name }

/-- `TorrentState::per_peer_stats_snapshot(filter)`. -/
def System.per_peer_stats_snapshot (sys : System) (filter : PeerStatsFilterState) :
    List (Nat × SnapshotPeerStats) :=
  (sys.registry.filter (fun kv => filter.matches kv.2.state)).map
    (fun kv => (kv.1, SnapshotPeerStats.ofPeer kv.2))

/-! ### Peer-handler callbacks -/

/-- The handler-local fields used by the modelled callbacks (`PeerHandler` +
`PeerHandlerLocked`).  The request semaphore, notifies, and the
`previously_requested_pieces` bitfield drive the requester loop only and are
not consulted by any modelled operation. -/
structure PeerHandler where
  addr : Nat
  i_am_choked : Bool
deriving DecidableEq, Repr

/-- A received `Piece(index, begin, block)` message (only the block length of
the payload is relevant to the control flow). -/
structure PieceMsg where
  index : Nat
  begin_ : Nat
  blockLen : Nat
deriving DecidableEq, Repr

/-- `PeerHandler::reserve_next_needed_piece`: under `with_live_mut`, bail if
choked; otherwise take the first needed piece whose bit is set in the peer's
bitfield, validate it, record it in `inflight_pieces` for this peer at the
current instant, and reserve it in the chunk tracker. -/
def reserve_next_needed_piece (sys : System) (h : PeerHandler) (now : Nat) :
    Option Nat × System :=
  match alistLookup h.addr sys.registry with
  | none => (none, sys)
  | some pe =>
    match pe.state with
    | .live l =>
      if h.i_am_choked then (none, sys)
      else
        match (sys.locked.chunks.iter_needed_pieces).find?
            (fun n => l.bitfield.get? n == some true) with
        | none => (none, sys)
        | some n =>
          match sys.lengths.validate_piece_index n with
          | none => (none, sys)
          | some np =>
            (some np,
              { sys with locked :=
                { chunks := sys.locked.chunks.reserve_needed_piece np
                  inflight_pieces :=
                    alistInsert np ⟨h.addr, now⟩ sys.locked.inflight_pieces } })
    | _ => (none, sys)

/-- `PeerHandler::try_steal_old_slow_piece(threshold)`: require at least 20
checked pieces, compute the average piece download time, pick the in-flight
piece not owned by us with the longest elapsed time (Rust `max_by_key`:
last maximum), and reassign it to us if the elapsed time exceeds
`avg_time * threshold`. -/
def try_steal_old_slow_piece (sys : System) (selfAddr : Nat) (now : Nat)
    (threshold : ℚ) : Option Nat × System :=
  let total := sys.stats.downloaded_and_checked_pieces
  if total < 20 then (none, sys)
  else
    match sys.stats.average_piece_download_time with
    | none => (none, sys)
    | some avgSecs =>
      let cands := sys.locked.inflight_pieces.filter (fun kv => kv.2.peer != selfAddr)
      match lastMaxBy (fun kv => now - kv.2.started) cands with
      | none => (none, sys)
      | some kv =>
        if ((now - kv.2.started : Nat) : ℚ) / 1000 > avgSecs * threshold then
          let upd := sys.locked.inflight_pieces.map
            (fun e => if e.1 == kv.1 then (e.1, InflightPiece.mk selfAddr now) else e)
          (some kv.1, { sys with locked := { sys.locked with inflight_pieces := upd } })
        else (none, sys)

/-- What `on_peer_died` spawned: `timer = some d` when a reconnect timer task
with backoff duration `d` was spawned. -/
structure DiedOutcome where
  timer : Option Nat
deriving DecidableEq, Repr

/-- The tail of `on_peer_died` after the previous-state match (clean-death,
finished, and Dead/backoff handling).  `error` carries the peer error if any;
`backoffNext` is the external `backoff.next_backoff()` result. -/
def on_peer_died_rest (sys : System) (addr : Nat) (error : Option String)
    (backoffNext : Option Nat) : System × DiedOutcome :=
  match error with
  | none => ((sys_set_state sys addr .notNeeded).1, ⟨none⟩)
  | some _ =>
    let sys₂ := update_peer_counters sys addr
      (fun c => { c with errors := addU32 c.errors 1 })
    if sys₂.is_finished then ((sys_set_state sys₂ addr .notNeeded).1, ⟨none⟩)
    else
      let sys₃ := (sys_set_state sys₂ addr .dead).1
      match backoffNext with
      | some dur => (sys₃, ⟨some dur⟩)
      | none => ((drop_peer sys₃ addr).1, ⟨none⟩)

/-- `PeerHandler::on_peer_died(error)`: take the state out (leaving the
default `Queued`, with `incdec`), cancel a live peer's in-flight chunk
requests under the shared write lock, restore `NotNeeded`, drop
`Queued`/`Dead` bug states, and otherwise dispatch to the clean-death /
finished / backoff logic. -/
def on_peer_died (sys : System) (addr : Nat) (error : Option String)
    (backoffNext : Option Nat) : System × DiedOutcome :=
  match alistLookup addr sys.registry with
  | none => (sys, ⟨none⟩)
  | some pe =>
    let prev := pe.state
    let sys₀ : System :=
      { sys with
        registry := registryModify sys.registry addr (fun q => { q with state := .queued })
        agg := sys.agg.incdec prev .queued }
    match prev with
    | .connecting => on_peer_died_rest sys₀ addr error backoffNext
    | .live l =>
      let chunks' := l.inflight_requests.foldl
        (fun t pc => t.mark_chunk_request_cancelled pc.1 pc.2) sys₀.locked.chunks
      on_peer_died_rest { sys₀ with locked := { sys₀.locked with chunks := chunks' } }
        addr error backoffNext
    | .notNeeded => ((sys_set_state sys₀ addr .notNeeded).1, ⟨none⟩)
    | .queued => ((drop_peer sys₀ addr).1, ⟨none⟩)
    | .dead => ((drop_peer sys₀ addr).1, ⟨none⟩)

/-- The body of the reconnect timer task spawned by `on_peer_died` (the
`wait_for_peer` span): after the backoff sleep, transition Dead → Queued and
re-enqueue the address on the admission queue; bail if the peer is missing or
in an unexpected state. -/
def wait_for_peer_body (sys : System) (addr : Nat) : System × Except String Unit :=
  match alistLookup addr sys.registry with
  | none => (sys, .error "bug: peer disappeared")
  | some pe =>
    match pe.state with
    | .dead =>
      let sys' := (sys_set_state sys addr .queued).1
      ({ sys' with queue := sys'.queue ++ [addr] }, .ok ())
    | _ => (sys, .error "peer is in unexpected state")

/-- `PeerHandler::disconnect_all_peers_that_have_full_torrent`: every live
peer whose bitfield covers all pieces is transitioned to `NotNeeded` (the
Disconnect message send is an external channel effect). -/
def disconnect_all_peers_that_have_full_torrent (sys : System) : System :=
  let ra := sys.registry.foldr
    (fun kv (acc : List (Nat × Peer) × AggregatePeerStatsAtomic) =>
      match kv.2.state with
      | .live l =>
        if l.has_full_torrent sys.lengths.total_pieces then
          ((kv.1, { kv.2 with state := .notNeeded }) :: acc.1,
            acc.2.incdec (.live l) .notNeeded)
        else (kv :: acc.1, acc.2)
      | _ => (kv :: acc.1, acc.2))
    ([], sys.agg)
  { sys with registry := ra.1, agg := ra.2 }

/-- The part of `on_received_piece` after the locked section: the chunk disk
write (recorded in the ghost `writes` log), and — when this chunk completed
the piece — the checksum verdict: on success `mark_piece_downloaded`, global
and per-peer counter bumps, and the finish path; on failure
`mark_piece_broken`.  `fullTime` is the elapsed download time when the piece
was completed; `checksumOk` is the external `FileOps::check_piece` result. -/
def on_received_piece_after_lock (sys : System) (addr : Nat) (ci : ChunkInfo)
    (fullTime : Option Nat) (checksumOk : Bool) : System × Except String Unit :=
  let sysW := { sys with writes := sys.writes ++ [(ci.piece_index, ci.chunk_index)] }
  match fullTime with
  | none => (sysW, .ok ())
  | some elapsed =>
    if checksumOk then
      let sysA := { sysW with locked :=
        { sysW.locked with chunks := sysW.locked.chunks.mark_piece_downloaded ci.piece_index } }
      let len := sys.lengths.piece_len ci.piece_index
      let sysB := { sysA with stats :=
        { sysA.stats with
          downloaded_and_checked_bytes := addU64 sysA.stats.downloaded_and_checked_bytes len
          downloaded_and_checked_pieces := addU64 sysA.stats.downloaded_and_checked_pieces 1
          have_bytes := addU64 sysA.stats.have_bytes len
          total_piece_download_ms := addU64 sysA.stats.total_piece_download_ms elapsed } }
      let sysC := update_peer_counters sysB addr
        (fun c =>
          { c with
            downloaded_and_checked_pieces := addU32 c.downloaded_and_checked_pieces 1
            downloaded_and_checked_bytes := addU64 c.downloaded_and_checked_bytes len })
      let sysD := if sysC.is_finished then disconnect_all_peers_that_have_full_torrent sysC
        else sysC
      (sysD, .ok ())
    else
      ({ sysW with locked :=
          { sysW.locked with
            chunks := ChunkTracker.mark_piece_broken sysW.lengths sysW.locked.chunks
              ci.piece_index } }, .ok ())

/-- Steps 2-3 of `on_received_piece`: bump the per-peer and global fetched
counters for the received block. -/
def fetched_bump (sys : System) (addr : Nat) (blockLen : Nat) : System :=
  let sys₁ := update_peer_counters sys addr
    (fun c =>
      { c with
        fetched_bytes := addU64 c.fetched_bytes blockLen
        fetched_chunks := addU32 c.fetched_chunks 1 })
  { sys₁ with stats :=
    { sys₁.stats with fetched_bytes := addU64 sys₁.stats.fetched_bytes blockLen } }

/-- `PeerHandler::on_received_piece(piece)`: validate the chunk info, bump
fetched counters, remove the chunk from this peer's `inflight_requests`
(protocol violation if absent), then under the shared write lock check the
piece's `inflight_pieces` assignment (stolen / already completed ⇒ silently
drop) and run `mark_chunk_downloaded`; finally the write/checksum path.
`checksumOk` is the external checksum verdict used if this chunk completes
the piece. -/
def on_received_piece (sys : System) (addr : Nat) (msg : PieceMsg) (now : Nat)
    (checksumOk : Bool) : System × Except String Unit :=
  match sys.lengths.chunk_info_from_received_piece msg.index msg.begin_ msg.blockLen with
  | none => (sys, .error "peer sent us an invalid piece")
  | some ci =>
    let sys₂ := fetched_bump sys addr msg.blockLen
    match alistLookup addr sys₂.registry with
    | none => (sys₂, .error "peer not found")
    | some pe =>
      match pe.state with
      | .live l =>
        if (ci.piece_index, ci.chunk_index) ∈ l.inflight_requests then
          let lr := l.inflight_requests.filter
            (fun pc => pc != (ci.piece_index, ci.chunk_index))
          let reg₃ := registryModify sys₂.registry addr
            (fun q => { q with state := .live { l with inflight_requests := lr } })
          let sys₃ := { sys₂ with registry := reg₃ }
          match alistLookup ci.piece_index sys₃.locked.inflight_pieces with
          | some ip =>
            if ip.peer == addr then
              match ChunkTracker.mark_chunk_downloaded sys₃.lengths sys₃.locked.chunks
                  ci.piece_index ci.chunk_index with
              | none => (sys₃, .error "bogus data received, cannot map this to a chunk")
              | some (.previouslyCompleted, t) =>
                ({ sys₃ with locked := { sys₃.locked with chunks := t } }, .ok ())
              | some (.notCompleted, t) =>
                on_received_piece_after_lock
                  { sys₃ with locked := { sys₃.locked with chunks := t } }
                  addr ci none checksumOk
              | some (.completed, t) =>
                on_received_piece_after_lock
                  { sys₃ with locked :=
                    { chunks := t
                      inflight_pieces := alistErase ci.piece_index sys₃.locked.inflight_pieces } }
                  addr ci (some (now - ip.started)) checksumOk
            else (sys₃, .ok ())
          | none => (sys₃, .ok ())
        else (sys₂, .error "peer sent us a piece we did not ask")
      | _ => (sys₂, .error "peer not found")

/-- Invariant I1: every piece currently in `inflight_pieces` is marked
reserved by the chunk tracker. -/
def InflightReservedInv (st : TorrentStateLocked) : Prop :=
  ∀ p ∈ alistKeys st.inflight_pieces, st.chunks.reserved p

instance (st : TorrentStateLocked) : Decidable (InflightReservedInv st) := by
  unfold InflightReservedInv; infer_instance

/-- What C8 asserts about a silently dropped duplicate chunk: `Ok` result, no
chunk-tracker or `inflight_pieces` change, no disk write, and no change to
the global or per-peer downloaded-and-checked progress counters. -/
def DuplicateDropped (sys : System) (addr : Nat) (pe : Peer)
    (r : System × Except String Unit) : Prop :=
  r.2 = .ok () ∧ r.1.locked = sys.locked ∧ r.1.writes = sys.writes ∧
  r.1.stats.downloaded_and_checked_bytes = sys.stats.downloaded_and_checked_bytes ∧
  r.1.stats.downloaded_and_checked_pieces = sys.stats.downloaded_and_checked_pieces ∧
  (alistLookup addr r.1.registry).map
      (fun q => (q.counters.downloaded_and_checked_pieces,
        q.counters.downloaded_and_checked_bytes)) =
    some (pe.counters.downloaded_and_checked_pieces,
      pe.counters.downloaded_and_checked_bytes)

/-- `AggregatePeerStatsAtomic::counter(state)`: the value of the counter
selected by the state's variant. -/
def AggregatePeerStatsAtomic.counter (s : AggregatePeerStatsAtomic) :
    PeerState → Nat
  | .connecting => s.connecting
  | .live _ => s.live
  | .queued => s.queued
  | .dead => s.dead
  | .notNeeded => s.not_needed

/-- Number of registry entries whose state has the given name. -/
def countName (reg : List (Nat × Peer)) (n : String) : Nat :=
  (reg.filter (fun kv => kv.2.state.name == n)).length

/-- Invariant I2: each of the five per-state aggregate counters equals the
number of registry entries currently in that state. -/
def CounterInv (reg : List (Nat × Peer)) (agg : AggregatePeerStatsAtomic) : Prop :=
  ∀ s : PeerState, agg.counter s = countName reg s.name

/-- The sum of the five per-state aggregate counters (`seen` is not a state
counter). -/
def sumFive (agg : AggregatePeerStatsAtomic) : Nat :=
  agg.queued + agg.connecting + agg.live + agg.dead + agg.not_needed

/-! ## Concrete fixtures used by the witnesses -/

/-- Fixture: a small torrent (4 pieces of 32 bytes, 16-byte chunks) with one
live peer at address 5 that has pieces 1 and 2 and one outstanding request. -/
def exLengths : Lengths := ⟨4, fun _ => 32, 16⟩

def exLive : LivePeerState := ⟨7, true, [false, true, true, false], [(1, 0)]⟩

def exTracker : ChunkTracker :=
  ⟨[0, 1, 2, 3], [], [(0, 0), (0, 1), (1, 0), (1, 1), (2, 0), (2, 1), (3, 0), (3, 1)], []⟩

def exSys : System :=
  ⟨exLengths, [(5, ⟨.live exLive, default⟩)], ⟨0, 0, 1, 1, 0, 0⟩,
    ⟨exTracker, []⟩, ⟨0, 32, 1, 0, 0, 2000⟩, 96, 128, [], []⟩

/-- Fixture: `exSys` with an over-counted downloaded byte counter. -/
def exSysOver : System :=
  { exSys with stats := { exSys.stats with downloaded_and_checked_bytes := 100 } }


/-- Fixture: a warmed-up system (25 checked pieces, 2s average) with a
foreign in-flight piece that has been stuck long enough to steal. -/
def exSysSteal : System :=
  { exSys with
    stats := ⟨0, 32, 25, 0, 0, 50000⟩
    locked := ⟨exTracker, [(2, ⟨9, 10⟩)]⟩ }

/-- Fixture: `exSys` after piece 1 was reserved and then stolen by peer 9. -/
def exSysStolen : System :=
  { exSys with locked := ⟨exTracker.reserve_needed_piece 1, [(1, ⟨9, 10⟩)]⟩ }

/-! ## Lemmas about the generic helpers -/

theorem addU32_eq {a b : Nat} (h : a + b < U32_MOD) : addU32 a b = a + b := by
  simpa [addU32] using Nat.mod_eq_of_lt h

theorem subU32_eq {a b : Nat} (hb : b ≤ a) (ha : a < U32_MOD) : subU32 a b = a - b := by
  have h1 : a + U32_MOD - b = (a - b) + U32_MOD := by omega
  rw [subU32, h1, Nat.add_mod_right, Nat.mod_eq_of_lt (by omega)]

theorem addU64_eq {a b : Nat} (h : a + b < U64_MOD) : addU64 a b = a + b := by
  simpa [addU64] using Nat.mod_eq_of_lt h

theorem subU64_eq {a b : Nat} (hb : b ≤ a) (ha : a < U64_MOD) : subU64 a b = a - b := by
  have h1 : a + U64_MOD - b = (a - b) + U64_MOD := by omega
  rw [subU64, h1, Nat.add_mod_right, Nat.mod_eq_of_lt (by omega)]

/-- Underflowing `u64` subtraction wraps: when `a < b < 2^64` the result is
`a - b + 2^64` as an integer, in particular nonzero. -/
theorem subU64_wrap {a b : Nat} (hab : a < b) (hb : b < U64_MOD) :
    subU64 a b = a + U64_MOD - b := by
  rw [subU64, Nat.mod_eq_of_lt (by omega)]

theorem lastMaxBy_mem {α : Type} (f : α → Nat) :
    ∀ (l : List α) (x : α), lastMaxBy f l = some x → x ∈ l := by
  intro l
  induction l with
  | nil => intro x h; simp [lastMaxBy] at h
  | cons a as ih =>
    intro x h
    simp only [lastMaxBy] at h
    cases hrec : lastMaxBy f as with
    | none => rw [hrec] at h; simp at h; simp [h]
    | some y =>
      rw [hrec] at h
      by_cases hc : f y < f x
      · simp only [List.mem_cons]
        by_cases hxy : f y < f a
        · simp [hxy] at h; simp [h]
        · simp [hxy] at h; exact Or.inr (ih x (by rw [hrec, h]))
      · simp only [List.mem_cons]
        by_cases hxy : f y < f a
        · simp [hxy] at h; simp [h]
        · simp [hxy] at h; exact Or.inr (ih x (by rw [hrec, h]))

theorem lastMaxBy_cons_isSome {α : Type} (f : α → Nat) (a : α) (as : List α) :
    (lastMaxBy f (a :: as)).isSome = true := by
  simp only [lastMaxBy]
  cases lastMaxBy f as with
  | none => rfl
  | some y => by_cases h : f y < f a <;> simp [h]

theorem lastMaxBy_eq_none {α : Type} (f : α → Nat) (l : List α) :
    lastMaxBy f l = none ↔ l = [] := by
  cases l with
  | nil => simp [lastMaxBy]
  | cons a as =>
    constructor
    · intro h
      have := lastMaxBy_cons_isSome f a as
      rw [h] at this
      simp at this
    · intro h; simp at h

theorem lastMaxBy_max {α : Type} (f : α → Nat) :
    ∀ (l : List α) (x : α), lastMaxBy f l = some x → ∀ y ∈ l, f y ≤ f x := by
  intro l
  induction l with
  | nil => intro x h; simp [lastMaxBy] at h
  | cons a as ih =>
    intro x h y hy
    simp only [lastMaxBy] at h
    cases hrec : lastMaxBy f as with
    | none =>
      rw [hrec] at h
      simp only [Option.some.injEq] at h
      subst h
      rcases List.mem_cons.mp hy with rfl | hmem
      · exact le_refl _
      · rw [lastMaxBy_eq_none] at hrec
        subst hrec
        simp at hmem
    | some z =>
      rw [hrec] at h
      rcases List.mem_cons.mp hy with rfl | hmem
      · by_cases hc : f z < f y
        · simp [hc] at h; simp [h]
        · simp [hc] at h; subst h; omega
      · have hz := ih z hrec y hmem
        by_cases hc : f z < f a
        · simp [hc] at h; subst h; omega
        · simp [hc] at h; subst h; exact hz

/-- `List.find?` returns the first match: everything strictly before the hit
fails the predicate. -/
theorem find?_first {α : Type} (p : α → Bool) :
    ∀ (l : List α) (x : α), l.find? p = some x →
      ∃ l₁ l₂, l = l₁ ++ x :: l₂ ∧ (∀ y ∈ l₁, p y = false) ∧ p x = true := by
  intro l
  induction l with
  | nil => intro x h; simp at h
  | cons a as ih =>
    intro x h
    by_cases ha : p a
    · rw [List.find?_cons_of_pos _ ha] at h
      simp only [Option.some.injEq] at h
      subst h
      exact ⟨[], as, by simp, by simp, ha⟩
    · rw [List.find?_cons_of_neg _ (by simpa using ha)] at h
      obtain ⟨l₁, l₂, heq, hfail, hx⟩ := ih x h
      exact ⟨a :: l₁, l₂, by simp [heq], by
        intro y hy
        rcases List.mem_cons.mp hy with rfl | hmem
        · simpa using ha
        · exact hfail y hmem, hx⟩

/-! ## Supporting lemmas about the registry and the locked state -/

theorem alistLookup_registryModify (reg : List (Nat × Peer)) (addr : Nat)
    (f : Peer → Peer) :
    alistLookup addr (registryModify reg addr f) = (alistLookup addr reg).map f := by
  induction reg with
  | nil => rfl
  | cons kv rest ih =>
    by_cases h : kv.1 = addr
    · simp [registryModify, alistLookup, List.find?, h]
    · simp only [registryModify, List.map_cons] at *
      have hb : (kv.1 == addr) = false := by simpa using h
      simp only [hb, if_neg, Bool.false_eq_true, ite_false]
      simp only [alistLookup, List.find?, hb] at *
      exact ih

theorem alistLookup_erase_self {α : Type} (k : Nat) (l : List (Nat × α)) :
    alistLookup k (alistErase k l) = none := by
  induction l with
  | nil => rfl
  | cons kv rest ih =>
    by_cases h : kv.1 = k
    · simpa [alistErase, List.filter, h] using ih
    · have hb : (kv.1 == k) = false := by simpa using h
      simp only [alistErase, List.filter] at *
      simp only [bne, hb, Bool.not_false, alistLookup, List.find?] at *
      exact ih

theorem sys_set_state_locked (sys : System) (addr : Nat) (st : PeerState) :
    (sys_set_state sys addr st).1.locked = sys.locked := by
  unfold sys_set_state
  cases alistLookup addr sys.registry <;> rfl

theorem sys_set_state_queue (sys : System) (addr : Nat) (st : PeerState) :
    (sys_set_state sys addr st).1.queue = sys.queue := by
  unfold sys_set_state
  cases alistLookup addr sys.registry <;> rfl

theorem sys_set_state_stats (sys : System) (addr : Nat) (st : PeerState) :
    (sys_set_state sys addr st).1.stats = sys.stats := by
  unfold sys_set_state
  cases alistLookup addr sys.registry <;> rfl

theorem update_peer_counters_locked (sys : System) (addr : Nat)
    (f : PeerCounters → PeerCounters) :
    (update_peer_counters sys addr f).locked = sys.locked := rfl

theorem drop_peer_locked (sys : System) (addr : Nat) :
    (drop_peer sys addr).1.locked = sys.locked := by
  unfold drop_peer
  cases alistLookup addr sys.registry <;> rfl

theorem on_peer_died_rest_locked (sys : System) (addr : Nat) (error : Option String)
    (backoffNext : Option Nat) :
    (on_peer_died_rest sys addr error backoffNext).1.locked = sys.locked := by
  unfold on_peer_died_rest
  cases error with
  | none => exact sys_set_state_locked ..
  | some e =>
    by_cases hf : (update_peer_counters sys addr
        (fun c => { c with errors := addU32 c.errors 1 })).is_finished
    · simp only [hf, if_true]
      rw [sys_set_state_locked, update_peer_counters_locked]
    · simp only [hf, Bool.false_eq_true, if_false]
      cases backoffNext with
      | some d =>
        simp only
        rw [sys_set_state_locked, update_peer_counters_locked]
      | none =>
        simp only
        rw [drop_peer_locked, sys_set_state_locked, update_peer_counters_locked]

theorem disconnect_all_locked (sys : System) :
    (disconnect_all_peers_that_have_full_torrent sys).locked = sys.locked := rfl

theorem disconnect_all_stats (sys : System) :
    (disconnect_all_peers_that_have_full_torrent sys).stats = sys.stats := rfl

theorem stats_if_disconnect (b : Bool) (s : System) :
    (if b = true then disconnect_all_peers_that_have_full_torrent s else s).stats =
      s.stats := by
  cases b <;> rfl

theorem locked_if_disconnect (b : Bool) (s : System) :
    (if b = true then disconnect_all_peers_that_have_full_torrent s else s).locked =
      s.locked := by
  cases b <;> rfl

/-! ## C9: the per-peer stats snapshot -/

/-- C9 (counterexample): the claim says the per-peer snapshot contains all
eight counters of the data model including `downloaded_and_checked_bytes`,
each equal to the corresponding atomic.  It does not: two atomic counter
records that differ only in `downloaded_and_checked_bytes` (0 vs 1) produce
identical snapshots, so no function of the snapshot can recover that
counter. -/
theorem per_peer_snapshot_lacks_downloaded_bytes :
    (SnapshotPeerCounters.ofCounters ⟨0, 0, 0, 0, 0, 0, 0, 0⟩ =
        SnapshotPeerCounters.ofCounters ⟨0, 0, 0, 0, 0, 0, 0, 1⟩) ∧
    ¬ ∃ f : SnapshotPeerCounters → Nat,
        ∀ c : PeerCounters,
          f (SnapshotPeerCounters.ofCounters c) = c.downloaded_and_checked_bytes := by
  refine ⟨rfl, ?_⟩
  rintro ⟨f, hf⟩
  have h0 := hf ⟨0, 0, 0, 0, 0, 0, 0, 0⟩
  have h1 := hf ⟨0, 0, 0, 0, 0, 0, 0, 1⟩
  have he : SnapshotPeerCounters.ofCounters ⟨0, 0, 0, 0, 0, 0, 0, 0⟩ =
      SnapshotPeerCounters.ofCounters ⟨0, 0, 0, 0, 0, 0, 0, 1⟩ := rfl
  rw [he] at h0
  rw [h0] at h1
  simp at h1

/-- C9 (amended): every entry of `per_peer_stats_snapshot` comes from a
registry peer matching the filter and carries the peer's current state name
together with the seven per-peer counters that the snapshot struct has
(all of the data model's eight except `downloaded_and_checked_bytes`), each
equal to the current value of the corresponding atomic counter. -/
theorem per_peer_stats_snapshot_fields (sys : System) (filter : PeerStatsFilterState)
    (addr : Nat) (st : SnapshotPeerStats)
    (hmem : (addr, st) ∈ sys.per_peer_stats_snapshot filter) :
    ∃ pe : Peer, (addr, pe) ∈ sys.registry ∧ filter.matches pe.state = true ∧
      st.state = pe.state.name ∧
      st.counters.fetched_bytes = pe.counters.fetched_bytes ∧
      st.counters.total_time_connecting_ms = pe.counters.total_time_connecting_ms ∧
      st.counters.connection_attempts = pe.counters.connection_attempts ∧
      st.counters.connections = pe.counters.connections ∧
      st.counters.errors = pe.counters.errors ∧
      st.counters.fetched_chunks = pe.counters.fetched_chunks ∧
      st.counters.downloaded_and_checked_pieces =
        pe.counters.downloaded_and_checked_pieces := by
  unfold System.per_peer_stats_snapshot at hmem
  obtain ⟨kv, hkv, heq⟩ := List.mem_map.mp hmem
  obtain ⟨hkvmem, hmatch⟩ := List.mem_filter.mp hkv
  refine ⟨kv.2, ?_, hmatch, ?_⟩
  · have h1 : kv.1 = addr := congrArg Prod.fst heq
    rw [← h1]
    simpa using hkvmem
  · have h2 : st = SnapshotPeerStats.ofPeer kv.2 := (congrArg Prod.snd heq).symm
    subst h2
    exact ⟨rfl, rfl, rfl, rfl, rfl, rfl, rfl, rfl⟩

/-- C9 amended-claim witness at a concrete system. -/
theorem per_peer_stats_snapshot_fields_witness :
    ∃ pe : Peer,
      (3, pe) ∈ (System.mk ⟨1, fun _ => 4, 4⟩ [(3, ⟨.queued, default⟩)] default
          ⟨⟨[0], [], [(0, 0)], []⟩, []⟩ default 4 4 [] []).registry ∧
      PeerStatsFilterState.all.matches pe.state = true ∧
      (SnapshotPeerStats.ofPeer ⟨.queued, default⟩).state = pe.state.name ∧
      (SnapshotPeerStats.ofPeer ⟨.queued, default⟩).counters.fetched_bytes =
        pe.counters.fetched_bytes ∧
      (SnapshotPeerStats.ofPeer ⟨.queued, default⟩).counters.total_time_connecting_ms =
        pe.counters.total_time_connecting_ms ∧
      (SnapshotPeerStats.ofPeer ⟨.queued, default⟩).counters.connection_attempts =
        pe.counters.connection_attempts ∧
      (SnapshotPeerStats.ofPeer ⟨.queued, default⟩).counters.connections =
        pe.counters.connections ∧
      (SnapshotPeerStats.ofPeer ⟨.queued, default⟩).counters.errors =
        pe.counters.errors ∧
      (SnapshotPeerStats.ofPeer ⟨.queued, default⟩).counters.fetched_chunks =
        pe.counters.fetched_chunks ∧
      (SnapshotPeerStats.ofPeer ⟨.queued, default⟩).counters.downloaded_and_checked_pieces =
        pe.counters.downloaded_and_checked_pieces :=
  per_peer_stats_snapshot_fields
    (System.mk ⟨1, fun _ => 4, 4⟩ [(3, ⟨.queued, default⟩)] default
      ⟨⟨[0], [], [(0, 0)], []⟩, []⟩ default 4 4 [] [])
    .all 3 (SnapshotPeerStats.ofPeer ⟨.queued, default⟩) (by decide)

/-! ## C10: unchecked subtraction `needed_bytes - downloaded_and_checked_bytes` -/

/-- C10: `get_left_to_download_bytes`, `is_finished` and
`stats_snapshot().remaining_bytes` compute `needed_bytes -
downloaded_and_checked_bytes` with unchecked `u64` subtraction.  (i) Under the
precondition `downloaded ≤ needed` (with `needed` a `u64` value) the
subtraction is exact and `is_finished` means exactly `downloaded = needed`;
(ii) if the precondition fails the subtraction wraps around `2^64` (so it is
total only under the precondition); (iii) the only increment site — the
piece-verified path of `on_received_piece_after_lock` — adds exactly
`piece_length` and keeps the counter ≤ `needed_bytes` whenever the
per-piece accounting bound holds; (iv) that bound follows from per-piece
accounting: if `downloaded` is the sum of the verified pieces' lengths and
`needed` the sum over all initially-needed pieces, a newly verified needed
piece keeps `downloaded + piece_length ≤ needed`. -/
theorem unchecked_sub_total_iff_counter_bounded :
    (∀ sys : System,
      sys.stats.downloaded_and_checked_bytes ≤ sys.needed_bytes →
      sys.needed_bytes < U64_MOD →
        sys.get_left_to_download_bytes =
          sys.needed_bytes - sys.stats.downloaded_and_checked_bytes ∧
        (sys.stats_snapshot).remaining_bytes =
          sys.needed_bytes - sys.stats.downloaded_and_checked_bytes ∧
        (sys.is_finished = true ↔
          sys.stats.downloaded_and_checked_bytes = sys.needed_bytes)) ∧
    (∀ sys : System,
      sys.needed_bytes < sys.stats.downloaded_and_checked_bytes →
      sys.stats.downloaded_and_checked_bytes < U64_MOD →
        sys.get_left_to_download_bytes =
          sys.needed_bytes + U64_MOD - sys.stats.downloaded_and_checked_bytes ∧
        sys.is_finished = false) ∧
    (∀ (sys : System) (addr : Nat) (ci : ChunkInfo) (elapsed : Nat),
      sys.stats.downloaded_and_checked_bytes + sys.lengths.piece_len ci.piece_index ≤
        sys.needed_bytes →
      sys.needed_bytes < U64_MOD →
        (on_received_piece_after_lock sys addr ci (some elapsed)
            true).1.stats.downloaded_and_checked_bytes =
          sys.stats.downloaded_and_checked_bytes + sys.lengths.piece_len ci.piece_index ∧
        (on_received_piece_after_lock sys addr ci (some elapsed)
            true).1.stats.downloaded_and_checked_bytes ≤ sys.needed_bytes) ∧
    (∀ (l : Lengths) (P V : Finset Nat) (q : Nat),
      V ⊆ P → q ∈ P → q ∉ V →
        Finset.sum V l.piece_len + l.piece_len q ≤ Finset.sum P l.piece_len) := by
  refine ⟨?_, ?_, ?_, ?_⟩
  · intro sys hle hlt
    have h1 : sys.get_left_to_download_bytes =
        sys.needed_bytes - sys.stats.downloaded_and_checked_bytes := by
      unfold System.get_left_to_download_bytes System.get_downloaded_bytes
      exact subU64_eq hle hlt
    refine ⟨h1, ?_, ?_⟩
    · unfold System.stats_snapshot
      exact subU64_eq hle hlt
    · unfold System.is_finished
      rw [h1]
      simp only [beq_iff_eq]
      omega
  · intro sys hlt hbound
    have h1 : sys.get_left_to_download_bytes =
        sys.needed_bytes + U64_MOD - sys.stats.downloaded_and_checked_bytes := by
      unfold System.get_left_to_download_bytes System.get_downloaded_bytes
      exact subU64_wrap hlt hbound
    refine ⟨h1, ?_⟩
    unfold System.is_finished
    rw [h1]
    simp only [beq_eq_false_iff_ne, ne_eq]
    have : U64_MOD = 2 ^ 64 := rfl
    omega
  · intro sys addr ci elapsed hbound hlt
    have hadd : (on_received_piece_after_lock sys addr ci (some elapsed)
        true).1.stats.downloaded_and_checked_bytes =
        addU64 sys.stats.downloaded_and_checked_bytes
          (sys.lengths.piece_len ci.piece_index) := by
      unfold on_received_piece_after_lock
      simp only [if_pos]
      rw [stats_if_disconnect]
      rfl
    rw [hadd, addU64_eq (by omega)]
    omega
  · intro l P V q hVP hqP hqV
    have h1 : Finset.sum V l.piece_len + l.piece_len q =
        Finset.sum (insert q V) l.piece_len := by
      rw [Finset.sum_insert hqV]
      exact Nat.add_comm _ _
    rw [h1]
    refine Finset.sum_le_sum_of_subset ?_
    intro x hx
    rcases Finset.mem_insert.mp hx with rfl | hxV
    · exact hqP
    · exact hVP hxV

/-- C10 witness: the theorem applied at concrete systems. -/
theorem unchecked_sub_total_iff_counter_bounded_witness :
    exSys.get_left_to_download_bytes =
      exSys.needed_bytes - exSys.stats.downloaded_and_checked_bytes ∧
    exSysOver.get_left_to_download_bytes =
      exSysOver.needed_bytes + U64_MOD - exSysOver.stats.downloaded_and_checked_bytes :=
  ⟨(unchecked_sub_total_iff_counter_bounded.1 exSys (by decide) (by decide)).1,
    (unchecked_sub_total_iff_counter_bounded.2.1 exSysOver (by decide) (by decide)).1⟩

/-! ## C2: `try_steal_old_slow_piece` -/

/-- C2: `try_steal_old_slow_piece(threshold)` returns `None` whenever fewer
than 20 pieces have been downloaded and checked; whenever it returns `None`
the state is unchanged; when it returns `Some idx` the chosen entry is an
in-flight piece assigned to another peer whose elapsed time is maximal among
all such entries and exceeds the average piece download time times the
threshold, and the only state change is overwriting that entry's peer with
the caller and resetting its start time to now; and conversely whenever at
least 20 pieces are checked and the selected longest-elapsed foreign entry
exceeds the threshold, that piece is returned. -/
theorem try_steal_old_slow_piece_spec (sys : System) (selfAddr now : Nat) (th : ℚ) :
    (sys.stats.downloaded_and_checked_pieces < 20 →
      try_steal_old_slow_piece sys selfAddr now th = (none, sys)) ∧
    ((try_steal_old_slow_piece sys selfAddr now th).1 = none →
      (try_steal_old_slow_piece sys selfAddr now th).2 = sys) ∧
    (∀ idx, (try_steal_old_slow_piece sys selfAddr now th).1 = some idx →
      20 ≤ sys.stats.downloaded_and_checked_pieces ∧
      ∃ ip avg, (idx, ip) ∈ sys.locked.inflight_pieces ∧ ip.peer ≠ selfAddr ∧
        sys.stats.average_piece_download_time = some avg ∧
        ((now - ip.started : Nat) : ℚ) / 1000 > avg * th ∧
        (∀ kv ∈ sys.locked.inflight_pieces, kv.2.peer ≠ selfAddr →
          now - kv.2.started ≤ now - ip.started) ∧
        (try_steal_old_slow_piece sys selfAddr now th).2 =
          { sys with locked := { sys.locked with inflight_pieces := sys.locked.inflight_pieces.map (fun e => if e.1 == idx then (e.1, InflightPiece.mk selfAddr now) else e) } }) ∧
    (20 ≤ sys.stats.downloaded_and_checked_pieces →
      ∀ avg kv, sys.stats.average_piece_download_time = some avg →
        lastMaxBy (fun kv => now - kv.2.started)
          (sys.locked.inflight_pieces.filter (fun kv => kv.2.peer != selfAddr)) =
          some kv →
        ((now - kv.2.started : Nat) : ℚ) / 1000 > avg * th →
        (try_steal_old_slow_piece sys selfAddr now th).1 = some kv.1) := by
  refine ⟨?_, ?_, ?_, ?_⟩
  · intro h
    unfold try_steal_old_slow_piece
    rw [if_pos h]
  · unfold try_steal_old_slow_piece
    by_cases h20 : sys.stats.downloaded_and_checked_pieces < 20
    · rw [if_pos h20]
      intro _
      rfl
    · rw [if_neg h20]
      cases havg : sys.stats.average_piece_download_time with
      | none =>
        simp only [havg]
        intro _
        trivial
      | some avg =>
        simp only [havg]
        cases hmax : lastMaxBy (fun kv => now - kv.2.started)
            (sys.locked.inflight_pieces.filter (fun kv => kv.2.peer != selfAddr)) with
        | none =>
          simp only [hmax]
          intro _
          trivial
        | some kv =>
          simp only [hmax]
          by_cases hgt : ((now - kv.2.started : Nat) : ℚ) / 1000 > avg * th
          · rw [if_pos hgt]
            intro h
            simp at h
          · rw [if_neg hgt]
            intro _
            rfl
  · intro idx h
    revert h
    unfold try_steal_old_slow_piece
    by_cases h20 : sys.stats.downloaded_and_checked_pieces < 20
    · rw [if_pos h20]
      intro h
      simp at h
    · rw [if_neg h20]
      cases havg : sys.stats.average_piece_download_time with
      | none =>
        simp only [havg]
        intro h
        simp at h
      | some avg =>
        simp only [havg]
        cases hmax : lastMaxBy (fun kv => now - kv.2.started)
            (sys.locked.inflight_pieces.filter (fun kv => kv.2.peer != selfAddr)) with
        | none =>
          simp only [hmax]
          intro h
          simp at h
        | some kv =>
          simp only [hmax]
          by_cases hgt : ((now - kv.2.started : Nat) : ℚ) / 1000 > avg * th
          · rw [if_pos hgt]
            intro h
            have hidx : kv.1 = idx := by simpa using h
            subst hidx
            have hkvmem := lastMaxBy_mem _ _ _ hmax
            have hmem : kv ∈ sys.locked.inflight_pieces :=
              (List.mem_filter.mp hkvmem).1
            have hne : kv.2.peer ≠ selfAddr := by
              have := (List.mem_filter.mp hkvmem).2
              simpa using this
            refine ⟨by omega, kv.2, avg, by simpa using hmem, hne, rfl, hgt, ?_, rfl⟩
            intro e he hene
            refine lastMaxBy_max _ _ _ hmax e ?_
            refine List.mem_filter.mpr ⟨he, ?_⟩
            simpa using hene
          · rw [if_neg hgt]
            intro h
            simp at h
  · intro hge avg kv havg hmax hgt
    unfold try_steal_old_slow_piece
    rw [if_neg (by omega)]
    simp only [havg, hmax]
    rw [if_pos hgt]

/-- C2 witness: the theorem applied at concrete systems — too few checked
pieces gives `None` and leaves the state alone; a stuck foreign piece is
stolen. -/
theorem try_steal_old_slow_piece_spec_witness :
    try_steal_old_slow_piece exSys 9 100 10 = (none, exSys) ∧
    (try_steal_old_slow_piece exSysSteal 5 100000 10).1 = some 2 :=
  ⟨(try_steal_old_slow_piece_spec exSys 9 100 10).1 (by decide),
    (try_steal_old_slow_piece_spec exSysSteal 5 100000 10).2.2.2 (by decide) 2
      (2, ⟨9, 10⟩)
      (by norm_num [AtomicStats.average_piece_download_time, exSysSteal, exSys])
      (by decide)
      (by norm_num [exSysSteal, exSys])⟩

theorem alistLookup_insert_self {α : Type} (k : Nat) (v : α) (l : List (Nat × α)) :
    alistLookup k (alistInsert k v l) = some v := by
  simp [alistLookup, alistInsert, List.find?]

/-! ## C3: `reserve_next_needed_piece` -/

/-- C3: on a live peer, `reserve_next_needed_piece` returns `None` without
touching shared state when the handler is choked; whenever it returns `None`
the state is unchanged; when it returns `Some n`, `n` is the first piece
produced by `chunks.iter_needed_pieces()` whose bit is set in the peer's
bitfield, the piece was inserted into `inflight_pieces` for this peer at the
current instant, and `chunks.reserve_needed_piece` was applied to it; and
conversely when not choked and the first needed-and-held piece index is
valid, that piece is returned. -/
theorem reserve_next_needed_piece_spec (sys : System) (h : PeerHandler) (now : Nat)
    (pe : Peer) (l : LivePeerState)
    (hpe : alistLookup h.addr sys.registry = some pe) (hlive : pe.state = .live l) :
    (h.i_am_choked = true → reserve_next_needed_piece sys h now = (none, sys)) ∧
    ((reserve_next_needed_piece sys h now).1 = none →
      (reserve_next_needed_piece sys h now).2 = sys) ∧
    (∀ n, (reserve_next_needed_piece sys h now).1 = some n →
      h.i_am_choked = false ∧
      n < sys.lengths.total_pieces ∧
      l.bitfield.get? n = some true ∧
      (∃ pre post, sys.locked.chunks.iter_needed_pieces = pre ++ n :: post ∧
        ∀ m ∈ pre, ¬(l.bitfield.get? m = some true)) ∧
      (reserve_next_needed_piece sys h now).2 =
        { sys with locked := { chunks := sys.locked.chunks.reserve_needed_piece n, inflight_pieces := alistInsert n ⟨h.addr, now⟩ sys.locked.inflight_pieces } } ∧
      alistLookup n (reserve_next_needed_piece sys h now).2.locked.inflight_pieces =
        some ⟨h.addr, now⟩ ∧
      (reserve_next_needed_piece sys h now).2.locked.chunks.reserved n) ∧
    (h.i_am_choked = false →
      ∀ n, (sys.locked.chunks.iter_needed_pieces).find?
          (fun m => l.bitfield.get? m == some true) = some n →
        n < sys.lengths.total_pieces →
        (reserve_next_needed_piece sys h now).1 = some n) := by
  unfold reserve_next_needed_piece
  simp only [hpe, hlive]
  cases hchoked : h.i_am_choked with
  | true =>
    simp only [if_true]
    exact ⟨fun _ => trivial, fun _ => trivial, fun n hn => by simp at hn,
      fun hfalse => by simp at hfalse⟩
  | false =>
    simp only [Bool.false_eq_true, if_false]
    cases hfind : (sys.locked.chunks.iter_needed_pieces).find?
        (fun m => l.bitfield.get? m == some true) with
    | none =>
      simp only [hfind]
      refine ⟨fun habs => by simp at habs, fun _ => trivial,
        fun n hn => by simp at hn, ?_⟩
      intro _ n hfind2 _
      exact absurd hfind2 (by simp)
    | some n0 =>
      simp only [hfind]
      cases hval : sys.lengths.validate_piece_index n0 with
      | none =>
        simp only [hval]
        refine ⟨fun habs => by simp at habs, fun _ => trivial,
          fun n hn => by simp at hn, ?_⟩
        intro _ n hfind2 hlt
        have hn0 : n0 = n := by simpa using hfind2
        subst hn0
        unfold Lengths.validate_piece_index at hval
        rw [if_pos hlt] at hval
        exact absurd hval (by simp)
      | some np =>
        simp only [hval]
        have hval2 := hval
        unfold Lengths.validate_piece_index at hval2
        by_cases hlt : n0 < sys.lengths.total_pieces
        case neg =>
          rw [if_neg hlt] at hval2
          exact absurd hval2 (by simp)
        rw [if_pos hlt] at hval2
        have hnp0 : n0 = np := by simpa using hval2
        subst hnp0
        refine ⟨fun habs => by simp at habs, fun hn => by simp at hn, ?_, ?_⟩
        · intro n hn
          have hnn : n0 = n := by simpa using hn
          subst hnn
          obtain ⟨pre, post, hsplit, hfail, hhit⟩ := find?_first _ _ _ hfind
          refine ⟨trivial, hlt, by simpa using hhit, ⟨pre, post, hsplit, ?_⟩, rfl,
            alistLookup_insert_self .., List.mem_cons_self ..⟩
          intro m hm
          have hfm := hfail m hm
          simpa using hfm
        · intro _ n hfind2 _
          have hnn : n0 = n := by simpa using hfind2
          subst hnn
          rfl

/-- C3 witness: on the concrete fixture the first needed piece held by the
peer (piece 1) is reserved and recorded for the caller. -/
theorem reserve_next_needed_piece_spec_witness :
    (reserve_next_needed_piece exSys ⟨5, false⟩ 100).1 = some 1 ∧
    alistLookup 1 (reserve_next_needed_piece exSys ⟨5, false⟩ 100).2.locked.inflight_pieces =
      some ⟨5, 100⟩ := by
  have hspec := reserve_next_needed_piece_spec exSys ⟨5, false⟩ 100
    ⟨.live exLive, default⟩ exLive (by decide) rfl
  have h1 : (reserve_next_needed_piece exSys ⟨5, false⟩ 100).1 = some 1 :=
    hspec.2.2.2 rfl 1 (by decide) (by decide)
  exact ⟨h1, (hspec.2.2.1 1 h1).2.2.2.2.2.1⟩

theorem sys_set_state_lookup (sys : System) (addr : Nat) (st : PeerState) (p : Peer)
    (h : alistLookup addr sys.registry = some p) :
    alistLookup addr (sys_set_state sys addr st).1.registry =
      some { p with state := st } := by
  unfold sys_set_state
  rw [h]
  simp only
  rw [alistLookup_registryModify, h]
  rfl

theorem update_peer_counters_lookup (sys : System) (addr : Nat)
    (f : PeerCounters → PeerCounters) (p : Peer)
    (h : alistLookup addr sys.registry = some p) :
    alistLookup addr (update_peer_counters sys addr f).registry =
      some { p with counters := f p.counters } := by
  unfold update_peer_counters
  rw [alistLookup_registryModify, h]
  rfl

theorem drop_peer_lookup (sys : System) (addr : Nat) (p : Peer)
    (h : alistLookup addr sys.registry = some p) :
    alistLookup addr (drop_peer sys addr).1.registry = none := by
  unfold drop_peer
  rw [h]
  simp only
  exact alistLookup_erase_self ..

/-- Behaviour of the clean-death / finished / backoff tail of
`on_peer_died` for a peer present in the registry. -/
theorem on_peer_died_rest_spec (sys : System) (addr : Nat) (error : Option String)
    (backoffNext : Option Nat) (p : Peer)
    (hp : alistLookup addr sys.registry = some p) :
    (error = none →
      (alistLookup addr (on_peer_died_rest sys addr error backoffNext).1.registry).map
          Peer.state = some .notNeeded ∧
      (on_peer_died_rest sys addr error backoffNext).2.timer = none ∧
      (on_peer_died_rest sys addr error backoffNext).1.queue = sys.queue) ∧
    (∀ e, error = some e → sys.is_finished = true →
      (alistLookup addr (on_peer_died_rest sys addr error backoffNext).1.registry).map
          Peer.state = some .notNeeded ∧
      (on_peer_died_rest sys addr error backoffNext).2.timer = none) ∧
    (∀ e d, error = some e → sys.is_finished = false → backoffNext = some d →
      (alistLookup addr (on_peer_died_rest sys addr error backoffNext).1.registry).map
          Peer.state = some .dead ∧
      (on_peer_died_rest sys addr error backoffNext).2.timer = some d) ∧
    (∀ e, error = some e → sys.is_finished = false → backoffNext = none →
      alistLookup addr (on_peer_died_rest sys addr error backoffNext).1.registry = none ∧
      (on_peer_died_rest sys addr error backoffNext).2.timer = none) ∧
    (∀ e, error = some e →
      (alistLookup addr (on_peer_died_rest sys addr error backoffNext).1.registry).map
          (fun q => q.counters.errors) = some (addU32 p.counters.errors 1) ∨
      alistLookup addr (on_peer_died_rest sys addr error backoffNext).1.registry = none) := by
  have hup := update_peer_counters_lookup sys addr
    (fun c => { c with errors := addU32 c.errors 1 }) p hp
  have hfineq : (update_peer_counters sys addr
      (fun c => { c with errors := addU32 c.errors 1 })).is_finished =
      sys.is_finished := rfl
  refine ⟨?_, ?_, ?_, ?_, ?_⟩
  · rintro rfl
    unfold on_peer_died_rest
    refine ⟨?_, rfl, sys_set_state_queue ..⟩
    rw [sys_set_state_lookup sys addr .notNeeded p hp]
    rfl
  · rintro e rfl hfin
    unfold on_peer_died_rest
    simp only [hfineq, hfin, if_true]
    refine ⟨?_, trivial⟩
    rw [sys_set_state_lookup _ addr .notNeeded _ hup]
    rfl
  · rintro e d rfl hfin rfl
    unfold on_peer_died_rest
    simp only [hfineq, hfin, Bool.false_eq_true, if_false]
    refine ⟨?_, trivial⟩
    rw [sys_set_state_lookup _ addr .dead _ hup]
    rfl
  · rintro e rfl hfin rfl
    unfold on_peer_died_rest
    simp only [hfineq, hfin, Bool.false_eq_true, if_false]
    refine ⟨?_, trivial⟩
    have hdead := sys_set_state_lookup _ addr .dead _ hup
    exact drop_peer_lookup _ addr _ hdead
  · rintro e rfl
    unfold on_peer_died_rest
    by_cases hfin : sys.is_finished = true
    · simp only [hfineq, hfin, if_true]
      left
      rw [sys_set_state_lookup _ addr .notNeeded _ hup]
      rfl
    · simp only [hfineq, hfin, Bool.false_eq_true, if_false]
      cases backoffNext with
      | some d =>
        left
        simp only
        rw [sys_set_state_lookup _ addr .dead _ hup]
        rfl
      | none =>
        right
        simp only
        have hdead := sys_set_state_lookup _ addr .dead _ hup
        exact drop_peer_lookup _ addr _ hdead

/-! ## C5: `on_peer_died` rescheduling and backoff -/

/-- C5: for a peer that died from Connecting or Live: a clean death (no
error) sets `NotNeeded` and spawns nothing; an error with the torrent
finished sets `NotNeeded`; otherwise the peer is set `Dead` and
`backoff.next_backoff()` decides — a duration spawns the reconnect timer,
`None` drops the peer from the registry.  The spawned timer body transitions
Dead → Queued and re-enqueues the address on the admission queue. -/
theorem on_peer_died_error_handling (sys : System) (addr : Nat)
    (error : Option String) (backoffNext : Option Nat) (pe : Peer)
    (hpe : alistLookup addr sys.registry = some pe)
    (hcl : pe.state = .connecting ∨ ∃ l, pe.state = PeerState.live l) :
    (error = none →
      (alistLookup addr (on_peer_died sys addr error backoffNext).1.registry).map
          Peer.state = some .notNeeded ∧
      (on_peer_died sys addr error backoffNext).2.timer = none ∧
      (on_peer_died sys addr error backoffNext).1.queue = sys.queue) ∧
    (∀ e, error = some e → sys.is_finished = true →
      (alistLookup addr (on_peer_died sys addr error backoffNext).1.registry).map
          Peer.state = some .notNeeded ∧
      (on_peer_died sys addr error backoffNext).2.timer = none) ∧
    (∀ e d, error = some e → sys.is_finished = false → backoffNext = some d →
      (alistLookup addr (on_peer_died sys addr error backoffNext).1.registry).map
          Peer.state = some .dead ∧
      (on_peer_died sys addr error backoffNext).2.timer = some d) ∧
    (∀ e, error = some e → sys.is_finished = false → backoffNext = none →
      alistLookup addr (on_peer_died sys addr error backoffNext).1.registry = none ∧
      (on_peer_died sys addr error backoffNext).2.timer = none) ∧
    (∀ (sys2 : System) (q : Peer), alistLookup addr sys2.registry = some q →
      q.state = .dead →
      (wait_for_peer_body sys2 addr).2 = .ok () ∧
      (alistLookup addr (wait_for_peer_body sys2 addr).1.registry).map Peer.state =
        some .queued ∧
      (wait_for_peer_body sys2 addr).1.queue = sys2.queue ++ [addr]) := by
  have key : ∃ sysX, (on_peer_died sys addr error backoffNext =
      on_peer_died_rest sysX addr error backoffNext) ∧
      alistLookup addr sysX.registry = some { pe with state := PeerState.queued } ∧
      sysX.is_finished = sys.is_finished ∧ sysX.queue = sys.queue := by
    rcases hcl with hc | ⟨l, hl⟩
    · refine ⟨{ sys with registry := registryModify sys.registry addr (fun q => { q with state := PeerState.queued }), agg := sys.agg.incdec PeerState.connecting PeerState.queued }, ?_, ?_, rfl, rfl⟩
      · unfold on_peer_died
        rw [hpe]
        simp only [hc]
      · rw [alistLookup_registryModify, hpe]
        rfl
    · refine ⟨{ sys with registry := registryModify sys.registry addr (fun q => { q with state := PeerState.queued }), agg := sys.agg.incdec (PeerState.live l) PeerState.queued, locked := { chunks := l.inflight_requests.foldl (fun t pc => t.mark_chunk_request_cancelled pc.1 pc.2) sys.locked.chunks, inflight_pieces := sys.locked.inflight_pieces } }, ?_, ?_, rfl, rfl⟩
      · unfold on_peer_died
        rw [hpe]
        simp only [hl]
      · rw [alistLookup_registryModify, hpe]
        rfl
  obtain ⟨sysX, heq, hlook, hfeq, hqeq⟩ := key
  have hrs := on_peer_died_rest_spec sysX addr error backoffNext _ hlook
  refine ⟨?_, ?_, ?_, ?_, ?_⟩
  · rintro rfl
    rw [heq]
    exact ⟨(hrs.1 rfl).1, (hrs.1 rfl).2.1, ((hrs.1 rfl).2.2).trans hqeq⟩
  · rintro e rfl hfin
    rw [heq]
    exact hrs.2.1 e rfl (hfeq.trans hfin)
  · rintro e d rfl hfin rfl
    rw [heq]
    exact hrs.2.2.1 e d rfl (hfeq.trans hfin) rfl
  · rintro e rfl hfin rfl
    rw [heq]
    exact hrs.2.2.2.1 e rfl (hfeq.trans hfin) rfl
  · intro sys2 q hq hdead
    unfold wait_for_peer_body
    rw [hq]
    simp only [hdead]
    refine ⟨trivial, ?_, ?_⟩
    · have hl2 := sys_set_state_lookup sys2 addr .queued q hq
      exact (congrArg (Option.map Peer.state) hl2).trans rfl
    · rw [sys_set_state_queue]

/-- C5 witness: a live peer dying with an error and a pending backoff is set
Dead with a 10-unit reconnect timer spawned. -/
theorem on_peer_died_error_handling_witness :
    (alistLookup 5 (on_peer_died exSys 5 (some "err") (some 10)).1.registry).map
      Peer.state = some .dead ∧
    (on_peer_died exSys 5 (some "err") (some 10)).2.timer = some 10 :=
  (on_peer_died_error_handling exSys 5 (some "err") (some 10) ⟨.live exLive, default⟩
    (by decide) (Or.inr ⟨exLive, rfl⟩)).2.2.1 "err" 10 rfl (by decide) rfl

/-! ## C4: cancelling a dead live peer's in-flight requests -/

theorem cancel_foldl_mono (R : List (Nat × Nat)) :
    ∀ (t : ChunkTracker) (pc : Nat × Nat), pc ∈ t.neededChunks →
      pc ∈ (R.foldl (fun t pc => t.mark_chunk_request_cancelled pc.1 pc.2)
        t).neededChunks := by
  induction R with
  | nil => intro t pc h; exact h
  | cons a R ih =>
    intro t pc h
    exact ih _ pc (List.mem_cons_of_mem _ h)

theorem cancel_foldl_mem (R : List (Nat × Nat)) :
    ∀ (t : ChunkTracker) (pc : Nat × Nat), pc ∈ R →
      pc ∈ (R.foldl (fun t pc => t.mark_chunk_request_cancelled pc.1 pc.2)
        t).neededChunks := by
  induction R with
  | nil => intro t pc h; simp at h
  | cons a R ih =>
    intro t pc h
    rcases List.mem_cons.mp h with rfl | hmem
    · exact cancel_foldl_mono R _ pc (List.mem_cons_self ..)
    · exact ih _ pc hmem

/-- C4: when a peer whose previous state was Live (with in-flight request set
R) dies, `mark_chunk_request_cancelled` is applied to every `(piece, chunk)`
of R under the shared state, so afterwards every chunk of R is reported as
needed again by the chunk tracker — regardless of the error / backoff
outcome. -/
theorem on_peer_died_cancellation_roundtrip (sys : System) (addr : Nat)
    (error : Option String) (backoffNext : Option Nat) (pe : Peer)
    (l : LivePeerState) (hpe : alistLookup addr sys.registry = some pe)
    (hlive : pe.state = PeerState.live l) :
    ∀ pc ∈ l.inflight_requests,
      (on_peer_died sys addr error backoffNext).1.locked.chunks.chunkNeeded pc.1 pc.2 := by
  intro pc hpc
  unfold on_peer_died
  rw [hpe]
  simp only [hlive]
  rw [ChunkTracker.chunkNeeded, on_peer_died_rest_locked]
  exact cancel_foldl_mem _ _ pc hpc

/-- C4 witness: the fixture peer's outstanding chunk (1,0) is needed again
after its death. -/
theorem on_peer_died_cancellation_roundtrip_witness :
    (on_peer_died exSys 5 (some "err") (some 10)).1.locked.chunks.chunkNeeded 1 0 :=
  on_peer_died_cancellation_roundtrip exSys 5 (some "err") (some 10)
    ⟨.live exLive, default⟩ exLive (by decide) rfl (1, 0) (by decide)

theorem fetched_bump_locked (sys : System) (addr b : Nat) :
    (fetched_bump sys addr b).locked = sys.locked := rfl

theorem fetched_bump_lookup (sys : System) (addr b : Nat) (pe : Peer)
    (hpe : alistLookup addr sys.registry = some pe) :
    alistLookup addr (fetched_bump sys addr b).registry =
      some { pe with counters := { pe.counters with fetched_bytes := addU64 pe.counters.fetched_bytes b, fetched_chunks := addU32 pe.counters.fetched_chunks 1 } } := by
  unfold fetched_bump
  simp only
  exact update_peer_counters_lookup sys addr _ pe hpe

/-- The errors counter after the error tail of `on_peer_died`, when a
backoff duration is available (so the peer is not dropped). -/
theorem on_peer_died_rest_errors (sys : System) (addr : Nat) (e : String)
    (d : Nat) (p : Peer) (hp : alistLookup addr sys.registry = some p) :
    (alistLookup addr (on_peer_died_rest sys addr (some e) (some d)).1.registry).map
      (fun q => q.counters.errors) = some (addU32 p.counters.errors 1) := by
  unfold on_peer_died_rest
  have hup := update_peer_counters_lookup sys addr
    (fun c => { c with errors := addU32 c.errors 1 }) p hp
  by_cases hfin : (update_peer_counters sys addr
      (fun c => { c with errors := addU32 c.errors 1 })).is_finished = true
  · simp only [hfin, if_true]
    rw [sys_set_state_lookup _ addr .notNeeded _ hup]
    rfl
  · simp only [hfin, Bool.false_eq_true, if_false]
    rw [sys_set_state_lookup _ addr .dead _ hup]
    rfl

/-! ## C7: unsolicited Piece is a protocol violation -/

/-- C7: a Piece whose `(piece, chunk)` is not in the live peer's
`inflight_requests` makes `on_received_piece` fail with an error after only
the fetched-counter bumps — the shared chunk tracker and `inflight_pieces`
are untouched — and the subsequent `on_peer_died(Some(err))` increments the
peer's `errors` counter by exactly one. -/
theorem on_received_piece_unsolicited (sys : System) (addr : Nat) (msg : PieceMsg)
    (now : Nat) (ck : Bool) (ci : ChunkInfo) (pe : Peer) (l : LivePeerState)
    (hci : sys.lengths.chunk_info_from_received_piece msg.index msg.begin_
      msg.blockLen = some ci)
    (hpe : alistLookup addr sys.registry = some pe)
    (hlive : pe.state = PeerState.live l)
    (hnotin : (ci.piece_index, ci.chunk_index) ∉ l.inflight_requests) :
    on_received_piece sys addr msg now ck =
      (fetched_bump sys addr msg.blockLen,
        .error "peer sent us a piece we did not ask") ∧
    (on_received_piece sys addr msg now ck).1.locked = sys.locked ∧
    (∀ e d, (alistLookup addr (on_peer_died (on_received_piece sys addr msg now ck).1
        addr (some e) (some d)).1.registry).map (fun q => q.counters.errors) =
      some (addU32 pe.counters.errors 1)) ∧
    (pe.counters.errors + 1 < U32_MOD →
      ∀ e d, (alistLookup addr (on_peer_died (on_received_piece sys addr msg now ck).1
          addr (some e) (some d)).1.registry).map (fun q => q.counters.errors) =
        some (pe.counters.errors + 1)) := by
  have hbump := fetched_bump_lookup sys addr msg.blockLen pe hpe
  have hred : on_received_piece sys addr msg now ck =
      (fetched_bump sys addr msg.blockLen,
        .error "peer sent us a piece we did not ask") := by
    unfold on_received_piece
    simp only [hci]
    rw [hbump]
    simp only [hlive]
    rw [if_neg hnotin]
  have herr : ∀ e d, (alistLookup addr
      (on_peer_died (on_received_piece sys addr msg now ck).1 addr (some e)
        (some d)).1.registry).map (fun q => q.counters.errors) =
      some (addU32 pe.counters.errors 1) := by
    intro e d
    rw [hred]
    simp only
    have hW : on_peer_died (fetched_bump sys addr msg.blockLen) addr (some e) (some d) =
        on_peer_died_rest { fetched_bump sys addr msg.blockLen with registry := registryModify (fetched_bump sys addr msg.blockLen).registry addr (fun q => { q with state := PeerState.queued }), agg := (fetched_bump sys addr msg.blockLen).agg.incdec (PeerState.live l) PeerState.queued, locked := { chunks := l.inflight_requests.foldl (fun t pc => t.mark_chunk_request_cancelled pc.1 pc.2) (fetched_bump sys addr msg.blockLen).locked.chunks, inflight_pieces := (fetched_bump sys addr msg.blockLen).locked.inflight_pieces } } addr (some e) (some d) := by
      unfold on_peer_died
      rw [hbump]
      simp only [hlive]
    rw [hW]
    have hlookW : alistLookup addr (registryModify (fetched_bump sys addr msg.blockLen).registry addr (fun q => { q with state := PeerState.queued })) = some { state := PeerState.queued, counters := { pe.counters with fetched_bytes := addU64 pe.counters.fetched_bytes msg.blockLen, fetched_chunks := addU32 pe.counters.fetched_chunks 1 } } := by
      rw [alistLookup_registryModify, hbump]
      rfl
    exact on_peer_died_rest_errors _ addr e d { state := PeerState.queued, counters := { pe.counters with fetched_bytes := addU64 pe.counters.fetched_bytes msg.blockLen, fetched_chunks := addU32 pe.counters.fetched_chunks 1 } } hlookW
  refine ⟨hred, ?_, herr, ?_⟩
  · rw [hred]
    exact fetched_bump_locked sys addr msg.blockLen
  · intro hbound e d
    rw [herr e d, addU32_eq hbound]

/-- C7 witness: chunk (1,1) was never requested from the fixture peer; the
message errors out and the death bumps `errors` from 0 to 1. -/
theorem on_received_piece_unsolicited_witness :
    on_received_piece exSys 5 ⟨1, 16, 16⟩ 500 true =
      (fetched_bump exSys 5 16, .error "peer sent us a piece we did not ask") ∧
    (alistLookup 5 (on_peer_died (on_received_piece exSys 5 ⟨1, 16, 16⟩ 500 true).1
        5 (some "e") (some 7)).1.registry).map (fun q => q.counters.errors) =
      some 1 := by
  have h := on_received_piece_unsolicited exSys 5 ⟨1, 16, 16⟩ 500 true ⟨1, 1, 16, 16⟩
    ⟨.live exLive, default⟩ exLive (by decide) (by decide) rfl (by decide)
  exact ⟨h.1, h.2.2.2 (by decide) "e" 7⟩

theorem fetched_bump_lengths (sys : System) (addr b : Nat) :
    (fetched_bump sys addr b).lengths = sys.lengths := rfl

theorem mark_chunk_downloaded_prevEq (l : Lengths) (t : ChunkTracker) (p c : Nat)
    (t' : ChunkTracker)
    (h : ChunkTracker.mark_chunk_downloaded l t p c = some (.previouslyCompleted, t')) :
    t' = t := by
  unfold ChunkTracker.mark_chunk_downloaded at h
  by_cases h1 : p ≥ l.total_pieces ∨ c ≥ l.num_chunks p
  · rw [if_pos h1] at h
    simp at h
  · rw [if_neg h1] at h
    by_cases h2 : p ∈ t.havePieces ∨ t.pieceComplete l p = true
    · rw [if_pos h2] at h
      simp only [Option.some.injEq, Prod.mk.injEq] at h
      exact h.2.symm
    · rw [if_neg h2] at h
      simp only at h
      split at h <;> simp at h

/-! ## C8: duplicate Piece arrivals are silently dropped -/

/-- C8: a Piece for a requested chunk whose piece meanwhile moved on — the
`inflight_pieces` entry is assigned to a different peer (stolen), the entry
is absent (completed by someone else), or `mark_chunk_downloaded` reports
`PreviouslyCompleted` — is silently ignored: `on_received_piece` returns
`Ok`, performs no disk write, and the chunk is not counted toward download
progress a second time (global and per-peer downloaded-and-checked counters
and the shared locked state are unchanged). -/
theorem on_received_piece_duplicate_silent (sys : System) (addr : Nat)
    (msg : PieceMsg) (now : Nat) (ck : Bool) (ci : ChunkInfo) (pe : Peer)
    (l : LivePeerState)
    (hci : sys.lengths.chunk_info_from_received_piece msg.index msg.begin_
      msg.blockLen = some ci)
    (hpe : alistLookup addr sys.registry = some pe)
    (hlive : pe.state = PeerState.live l)
    (hin : (ci.piece_index, ci.chunk_index) ∈ l.inflight_requests) :
    (∀ ip, alistLookup ci.piece_index sys.locked.inflight_pieces = some ip →
      ip.peer ≠ addr →
      DuplicateDropped sys addr pe (on_received_piece sys addr msg now ck)) ∧
    (alistLookup ci.piece_index sys.locked.inflight_pieces = none →
      DuplicateDropped sys addr pe (on_received_piece sys addr msg now ck)) ∧
    (∀ ip t, alistLookup ci.piece_index sys.locked.inflight_pieces = some ip →
      ip.peer = addr →
      ChunkTracker.mark_chunk_downloaded sys.lengths sys.locked.chunks
        ci.piece_index ci.chunk_index = some (.previouslyCompleted, t) →
      DuplicateDropped sys addr pe (on_received_piece sys addr msg now ck)) := by
  have hbump := fetched_bump_lookup sys addr msg.blockLen pe hpe
  refine ⟨?_, ?_, ?_⟩
  · intro ip hip hne
    unfold on_received_piece
    simp only [hci]
    rw [hbump]
    simp only [hlive]
    rw [if_pos hin, fetched_bump_locked, hip]
    dsimp only
    rw [if_neg (by simpa using hne)]
    refine ⟨rfl, rfl, rfl, rfl, rfl, ?_⟩
    simp only [alistLookup_registryModify, hbump]
    rfl
  · intro hnone
    unfold on_received_piece
    simp only [hci]
    rw [hbump]
    simp only [hlive]
    rw [if_pos hin, fetched_bump_locked, hnone]
    dsimp only
    refine ⟨rfl, rfl, rfl, rfl, rfl, ?_⟩
    simp only [alistLookup_registryModify, hbump]
    rfl
  · intro ip t hip hpeq hmark
    unfold on_received_piece
    simp only [hci]
    rw [hbump]
    simp only [hlive]
    rw [if_pos hin, fetched_bump_locked, fetched_bump_lengths, hip]
    dsimp only
    rw [if_pos (by simpa using hpeq), hmark]
    dsimp only
    have ht : t = sys.locked.chunks := mark_chunk_downloaded_prevEq _ _ _ _ _ hmark
    subst ht
    refine ⟨rfl, rfl, rfl, rfl, rfl, ?_⟩
    simp only [alistLookup_registryModify, hbump]
    rfl

/-- C8 witness: a requested chunk of a piece stolen by peer 9 is silently
dropped for the fixture peer. -/
theorem on_received_piece_duplicate_silent_witness :
    DuplicateDropped exSysStolen 5 ⟨.live exLive, default⟩
      (on_received_piece exSysStolen 5 ⟨1, 0, 16⟩ 500 true) :=
  (on_received_piece_duplicate_silent exSysStolen 5 ⟨1, 0, 16⟩ 500 true
    ⟨1, 0, 0, 16⟩ ⟨.live exLive, default⟩ exLive (by decide) (by decide) rfl
    (by decide)).1 ⟨9, 10⟩ (by decide) (by decide)

/-! ## C1: lemmas about keys and reservation preservation -/

theorem mem_alistKeys_erase {α : Type} (k p : Nat) (l : List (Nat × α))
    (h : p ∈ alistKeys (alistErase k l)) : p ∈ alistKeys l ∧ p ≠ k := by
  unfold alistKeys alistErase at *
  obtain ⟨kv, hkv, rfl⟩ := List.mem_map.mp h
  obtain ⟨hmem, hfil⟩ := List.mem_filter.mp hkv
  exact ⟨List.mem_map.mpr ⟨kv, hmem, rfl⟩, by simpa using hfil⟩

theorem mem_alistKeys_erase_of_ne {α : Type} (k p : Nat) (l : List (Nat × α))
    (hmem : p ∈ alistKeys l) (hne : p ≠ k) : p ∈ alistKeys (alistErase k l) := by
  unfold alistKeys alistErase at *
  obtain ⟨kv, hkv, rfl⟩ := List.mem_map.mp hmem
  refine List.mem_map.mpr ⟨kv, List.mem_filter.mpr ⟨hkv, by simpa using hne⟩, rfl⟩

theorem alistKeys_update {α : Type} (idx : Nat) (x : α) (l : List (Nat × α)) :
    alistKeys (l.map (fun e => if e.1 == idx then (e.1, x) else e)) = alistKeys l := by
  unfold alistKeys
  rw [List.map_map]
  refine List.map_congr_left ?_
  intro e _
  simp only [Function.comp]
  by_cases h : (e.1 == idx) = true
  · rw [if_pos h]
  · rw [if_neg h]

theorem mark_chunk_downloaded_reserved (l : Lengths) (t : ChunkTracker) (p c : Nat)
    (r : ChunkMarkingResult) (t' : ChunkTracker)
    (h : ChunkTracker.mark_chunk_downloaded l t p c = some (r, t')) :
    t'.reservedPieces = t.reservedPieces := by
  unfold ChunkTracker.mark_chunk_downloaded at h
  by_cases h1 : p ≥ l.total_pieces ∨ c ≥ l.num_chunks p
  · rw [if_pos h1] at h
    simp at h
  · rw [if_neg h1] at h
    by_cases h2 : p ∈ t.havePieces ∨ t.pieceComplete l p = true
    · rw [if_pos h2] at h
      simp only [Option.some.injEq, Prod.mk.injEq] at h
      rw [← h.2]
    · rw [if_neg h2] at h
      simp only at h
      split at h <;>
        (simp only [Option.some.injEq, Prod.mk.injEq] at h; rw [← h.2])

theorem cancel_foldl_reserved (R : List (Nat × Nat)) :
    ∀ t : ChunkTracker,
      (R.foldl (fun t pc => t.mark_chunk_request_cancelled pc.1 pc.2)
        t).reservedPieces = t.reservedPieces := by
  induction R with
  | nil => intro t; rfl
  | cons a R ih => intro t; exact ih _

theorem after_lock_inflight (sys : System) (addr : Nat) (ci : ChunkInfo)
    (ft : Option Nat) (ck : Bool) :
    (on_received_piece_after_lock sys addr ci ft ck).1.locked.inflight_pieces =
      sys.locked.inflight_pieces := by
  unfold on_received_piece_after_lock
  cases ft with
  | none => rfl
  | some e =>
    dsimp only
    cases ck with
    | true =>
      simp only [if_pos]
      rw [locked_if_disconnect, update_peer_counters_locked]
    | false =>
      simp only [Bool.false_eq_true, if_false]

theorem after_lock_inv (sys : System) (addr : Nat) (ci : ChunkInfo)
    (ft : Option Nat) (ck : Bool)
    (hinv : InflightReservedInv sys.locked)
    (hnk : ∀ e, ft = some e → ci.piece_index ∉ alistKeys sys.locked.inflight_pieces) :
    InflightReservedInv (on_received_piece_after_lock sys addr ci ft ck).1.locked := by
  unfold on_received_piece_after_lock
  cases ft with
  | none => exact hinv
  | some e =>
    dsimp only
    have hnk2 := hnk e rfl
    cases ck with
    | true =>
      simp only [if_pos]
      rw [locked_if_disconnect, update_peer_counters_locked]
      intro p hp
      have hres := hinv p hp
      have hne : p ≠ ci.piece_index := fun heq => hnk2 (heq ▸ hp)
      unfold ChunkTracker.reserved ChunkTracker.mark_piece_downloaded at *
      exact List.mem_filter.mpr ⟨hres, by simpa using hne⟩
    | false =>
      simp only [Bool.false_eq_true, if_false]
      intro p hp
      have hres := hinv p hp
      have hne : p ≠ ci.piece_index := fun heq => hnk2 (heq ▸ hp)
      unfold ChunkTracker.reserved ChunkTracker.mark_piece_broken at *
      exact List.mem_filter.mpr ⟨hres, by simpa using hne⟩

theorem mem_alistKeys_insert {α : Type} (k p : Nat) (v : α) (l : List (Nat × α))
    (h : p ∈ alistKeys (alistInsert k v l)) : p = k ∨ (p ∈ alistKeys l ∧ p ≠ k) := by
  unfold alistInsert at h
  rcases List.mem_cons.mp h with h1 | h2
  · exact Or.inl h1
  · exact Or.inr (mem_alistKeys_erase k p l h2)

theorem reserve_next_needed_piece_inv (sys : System) (h : PeerHandler) (now : Nat)
    (hinv : InflightReservedInv sys.locked) :
    InflightReservedInv (reserve_next_needed_piece sys h now).2.locked ∧
    (∀ n, (reserve_next_needed_piece sys h now).1 = some n →
      n ∈ alistKeys (reserve_next_needed_piece sys h now).2.locked.inflight_pieces ∧
      (reserve_next_needed_piece sys h now).2.locked.chunks.reserved n) := by
  unfold reserve_next_needed_piece
  cases hpe : alistLookup h.addr sys.registry with
  | none => exact ⟨hinv, fun n hn => by simp at hn⟩
  | some pe =>
    dsimp only
    obtain ⟨pst, pcnt⟩ := pe
    cases pst with
    | live l =>
      dsimp only
      by_cases hch : h.i_am_choked = true
      · rw [if_pos hch]
        exact ⟨hinv, fun n hn => by simp at hn⟩
      · rw [if_neg hch]
        cases hfind : (sys.locked.chunks.iter_needed_pieces).find?
            (fun n => l.bitfield.get? n == some true) with
        | none => exact ⟨hinv, fun n hn => by simp at hn⟩
        | some n0 =>
          dsimp only
          cases hval : sys.lengths.validate_piece_index n0 with
          | none => exact ⟨hinv, fun n hn => by simp at hn⟩
          | some np =>
            dsimp only
            constructor
            · intro p hp
              rcases mem_alistKeys_insert np p _ _ hp with rfl | ⟨hmem, _⟩
              · exact List.mem_cons_self ..
              · exact List.mem_cons_of_mem _ (hinv p hmem)
            · intro n hn
              have hnn : np = n := by simpa using hn
              subst hnn
              exact ⟨List.mem_cons_self .., List.mem_cons_self ..⟩
    | queued => exact ⟨hinv, fun n hn => by simp at hn⟩
    | connecting => exact ⟨hinv, fun n hn => by simp at hn⟩
    | dead => exact ⟨hinv, fun n hn => by simp at hn⟩
    | notNeeded => exact ⟨hinv, fun n hn => by simp at hn⟩

theorem try_steal_old_slow_piece_inv (sys : System) (selfAddr now : Nat) (th : ℚ)
    (hinv : InflightReservedInv sys.locked) :
    InflightReservedInv (try_steal_old_slow_piece sys selfAddr now th).2.locked ∧
    alistKeys (try_steal_old_slow_piece sys selfAddr now th).2.locked.inflight_pieces =
      alistKeys sys.locked.inflight_pieces := by
  unfold try_steal_old_slow_piece
  by_cases h20 : sys.stats.downloaded_and_checked_pieces < 20
  · rw [if_pos h20]
    exact ⟨hinv, rfl⟩
  · rw [if_neg h20]
    cases havg : sys.stats.average_piece_download_time with
    | none => exact ⟨hinv, rfl⟩
    | some avg =>
      dsimp only
      cases hmax : lastMaxBy (fun kv => now - kv.2.started)
          (sys.locked.inflight_pieces.filter (fun kv => kv.2.peer != selfAddr)) with
      | none => exact ⟨hinv, rfl⟩
      | some kv =>
        dsimp only
        by_cases hgt : ((now - kv.2.started : Nat) : ℚ) / 1000 > avg * th
        · rw [if_pos hgt]
          refine ⟨?_, alistKeys_update ..⟩
          intro p hp
          rw [alistKeys_update] at hp
          exact hinv p hp
        · rw [if_neg hgt]
          exact ⟨hinv, rfl⟩

theorem on_received_piece_inv (sys : System) (addr : Nat) (msg : PieceMsg)
    (now : Nat) (ck : Bool) (hinv : InflightReservedInv sys.locked) :
    InflightReservedInv (on_received_piece sys addr msg now ck).1.locked := by
  unfold on_received_piece
  cases hci : sys.lengths.chunk_info_from_received_piece msg.index msg.begin_
      msg.blockLen with
  | none => exact hinv
  | some ci =>
    dsimp only
    cases hreg : alistLookup addr (fetched_bump sys addr msg.blockLen).registry with
    | none => exact hinv
    | some pe =>
      dsimp only
      obtain ⟨pst, pcnt⟩ := pe
      cases pst with
      | live l =>
        dsimp only
        by_cases hin : (ci.piece_index, ci.chunk_index) ∈ l.inflight_requests
        · rw [if_pos hin, fetched_bump_locked, fetched_bump_lengths]
          cases hip : alistLookup ci.piece_index sys.locked.inflight_pieces with
          | none => exact hinv
          | some ip =>
            dsimp only
            by_cases hpeq : (ip.peer == addr) = true
            · rw [if_pos hpeq]
              cases hmark : ChunkTracker.mark_chunk_downloaded sys.lengths
                  sys.locked.chunks ci.piece_index ci.chunk_index with
              | none => exact hinv
              | some rt =>
                obtain ⟨r, t2⟩ := rt
                have hres := mark_chunk_downloaded_reserved _ _ _ _ _ _ hmark
                cases r with
                | previouslyCompleted =>
                  dsimp only
                  have ht : t2 = sys.locked.chunks :=
                    mark_chunk_downloaded_prevEq _ _ _ _ _ hmark
                  subst ht
                  exact hinv
                | notCompleted =>
                  dsimp only
                  refine after_lock_inv _ addr ci none ck ?_ (by simp)
                  intro p hp
                  unfold ChunkTracker.reserved
                  rw [hres]
                  exact hinv p hp
                | completed =>
                  dsimp only
                  refine after_lock_inv _ addr ci (some (now - ip.started)) ck ?_ ?_
                  · intro p hp
                    obtain ⟨hmem, _⟩ := mem_alistKeys_erase ci.piece_index p _ hp
                    unfold ChunkTracker.reserved
                    rw [hres]
                    exact hinv p hmem
                  · intro e _ hmem
                    exact (mem_alistKeys_erase ci.piece_index ci.piece_index _ hmem).2 rfl
            · rw [if_neg hpeq]
              exact hinv
        · rw [if_neg hin]
          exact hinv
      | queued => exact hinv
      | connecting => exact hinv
      | dead => exact hinv
      | notNeeded => exact hinv

theorem on_received_piece_removal_completed (sys : System) (addr : Nat)
    (msg : PieceMsg) (now : Nat) (ck : Bool) (p : Nat)
    (hbefore : p ∈ alistKeys sys.locked.inflight_pieces)
    (hafter : p ∉ alistKeys (on_received_piece sys addr msg now ck).1.locked.inflight_pieces) :
    ∃ ci t2, sys.lengths.chunk_info_from_received_piece msg.index msg.begin_
        msg.blockLen = some ci ∧ p = ci.piece_index ∧
      ChunkTracker.mark_chunk_downloaded sys.lengths sys.locked.chunks
        ci.piece_index ci.chunk_index = some (.completed, t2) := by
  revert hafter
  unfold on_received_piece
  cases hci : sys.lengths.chunk_info_from_received_piece msg.index msg.begin_
      msg.blockLen with
  | none => exact fun hafter => absurd hbefore hafter
  | some ci =>
    dsimp only
    cases hreg : alistLookup addr (fetched_bump sys addr msg.blockLen).registry with
    | none => exact fun hafter => absurd hbefore hafter
    | some pe =>
      dsimp only
      obtain ⟨pst, pcnt⟩ := pe
      cases pst with
      | live l =>
        dsimp only
        by_cases hin : (ci.piece_index, ci.chunk_index) ∈ l.inflight_requests
        · rw [if_pos hin, fetched_bump_locked, fetched_bump_lengths]
          cases hip : alistLookup ci.piece_index sys.locked.inflight_pieces with
          | none => exact fun hafter => absurd hbefore hafter
          | some ip =>
            dsimp only
            by_cases hpeq : (ip.peer == addr) = true
            · rw [if_pos hpeq]
              cases hmark : ChunkTracker.mark_chunk_downloaded sys.lengths
                  sys.locked.chunks ci.piece_index ci.chunk_index with
              | none => exact fun hafter => absurd hbefore hafter
              | some rt =>
                obtain ⟨r, t2⟩ := rt
                cases r with
                | previouslyCompleted =>
                  exact fun hafter => absurd hbefore hafter
                | notCompleted =>
                  dsimp only
                  rw [after_lock_inflight]
                  exact fun hafter => absurd hbefore hafter
                | completed =>
                  dsimp only
                  rw [after_lock_inflight]
                  intro hafter
                  refine ⟨ci, t2, rfl, ?_, hmark⟩
                  by_contra hne
                  exact hafter (mem_alistKeys_erase_of_ne _ _ _ hbefore hne)
            · rw [if_neg hpeq]
              exact fun hafter => absurd hbefore hafter
        · rw [if_neg hin]
          exact fun hafter => absurd hbefore hafter
      | queued => exact fun hafter => absurd hbefore hafter
      | connecting => exact fun hafter => absurd hbefore hafter
      | dead => exact fun hafter => absurd hbefore hafter
      | notNeeded => exact fun hafter => absurd hbefore hafter

theorem on_peer_died_inv (sys : System) (addr : Nat) (error : Option String)
    (backoffNext : Option Nat) (hinv : InflightReservedInv sys.locked) :
    InflightReservedInv (on_peer_died sys addr error backoffNext).1.locked := by
  unfold on_peer_died
  cases hpe : alistLookup addr sys.registry with
  | none => exact hinv
  | some pe =>
    dsimp only
    obtain ⟨pst, pcnt⟩ := pe
    cases pst with
    | connecting =>
      dsimp only
      rw [on_peer_died_rest_locked]
      exact hinv
    | live l =>
      dsimp only
      rw [on_peer_died_rest_locked]
      intro p hp
      unfold ChunkTracker.reserved
      rw [cancel_foldl_reserved]
      exact hinv p hp
    | notNeeded =>
      dsimp only
      rw [sys_set_state_locked]
      exact hinv
    | queued =>
      dsimp only
      rw [drop_peer_locked]
      exact hinv
    | dead =>
      dsimp only
      rw [drop_peer_locked]
      exact hinv

/-- C1: invariant I1 — every piece in `inflight_pieces` is reserved in the
chunk tracker — is preserved by every operation touching `inflight_pieces`:
`reserve_next_needed_piece` reserves the piece it inserts,
`try_steal_old_slow_piece` keeps the key set unchanged (it only reassigns
existing entries), `on_received_piece` preserves the invariant and removes a
piece only when `mark_chunk_downloaded` reports it Completed, and
`on_peer_died` (including its in-flight chunk cancellation) preserves it. -/
theorem inflight_pieces_reserved_invariant :
    (∀ (sys : System) (h : PeerHandler) (now : Nat), InflightReservedInv sys.locked →
      InflightReservedInv (reserve_next_needed_piece sys h now).2.locked ∧
      (∀ n, (reserve_next_needed_piece sys h now).1 = some n →
        n ∈ alistKeys (reserve_next_needed_piece sys h now).2.locked.inflight_pieces ∧
        (reserve_next_needed_piece sys h now).2.locked.chunks.reserved n)) ∧
    (∀ (sys : System) (selfAddr now : Nat) (th : ℚ), InflightReservedInv sys.locked →
      InflightReservedInv (try_steal_old_slow_piece sys selfAddr now th).2.locked ∧
      alistKeys (try_steal_old_slow_piece sys selfAddr now th).2.locked.inflight_pieces =
        alistKeys sys.locked.inflight_pieces) ∧
    (∀ (sys : System) (addr : Nat) (msg : PieceMsg) (now : Nat) (ck : Bool),
      InflightReservedInv sys.locked →
      InflightReservedInv (on_received_piece sys addr msg now ck).1.locked) ∧
    (∀ (sys : System) (addr : Nat) (msg : PieceMsg) (now : Nat) (ck : Bool) (p : Nat),
      p ∈ alistKeys sys.locked.inflight_pieces →
      p ∉ alistKeys (on_received_piece sys addr msg now ck).1.locked.inflight_pieces →
      ∃ ci t2, sys.lengths.chunk_info_from_received_piece msg.index msg.begin_
          msg.blockLen = some ci ∧ p = ci.piece_index ∧
        ChunkTracker.mark_chunk_downloaded sys.lengths sys.locked.chunks
          ci.piece_index ci.chunk_index = some (.completed, t2)) ∧
    (∀ (sys : System) (addr : Nat) (error : Option String) (backoffNext : Option Nat),
      InflightReservedInv sys.locked →
      InflightReservedInv (on_peer_died sys addr error backoffNext).1.locked) :=
  ⟨fun sys h now hinv => reserve_next_needed_piece_inv sys h now hinv,
    fun sys selfAddr now th hinv => try_steal_old_slow_piece_inv sys selfAddr now th hinv,
    fun sys addr msg now ck hinv => on_received_piece_inv sys addr msg now ck hinv,
    fun sys addr msg now ck p hb ha =>
      on_received_piece_removal_completed sys addr msg now ck p hb ha,
    fun sys addr error backoffNext hinv => on_peer_died_inv sys addr error backoffNext hinv⟩

/-- C1 witness: the invariant holds after a concrete reservation and after a
concrete Piece delivery on the stolen-piece fixture. -/
theorem inflight_pieces_reserved_invariant_witness :
    InflightReservedInv (reserve_next_needed_piece exSys ⟨5, false⟩ 100).2.locked ∧
    InflightReservedInv (on_received_piece exSysStolen 5 ⟨1, 0, 16⟩ 500 true).1.locked :=
  ⟨(inflight_pieces_reserved_invariant.1 exSys ⟨5, false⟩ 100 (by decide)).1,
    inflight_pieces_reserved_invariant.2.2.1 exSysStolen 5 ⟨1, 0, 16⟩ 500 true
      (by decide)⟩

/-! ## C6: counting lemmas -/

theorem countName_cons (kv : Nat × Peer) (rest : List (Nat × Peer)) (n : String) :
    countName (kv :: rest) n =
      (if kv.2.state.name == n then 1 else 0) + countName rest n := by
  unfold countName
  rw [List.filter_cons]
  by_cases h : (kv.2.state.name == n) = true
  · simp [h, Nat.add_comm]
  · simp [h]

theorem countName_append (l₁ l₂ : List (Nat × Peer)) (n : String) :
    countName (l₁ ++ l₂) n = countName l₁ n + countName l₂ n := by
  unfold countName
  rw [List.filter_append, List.length_append]

theorem countName_le (reg : List (Nat × Peer)) (n : String) :
    countName reg n ≤ reg.length :=
  List.length_filter_le ..

theorem countName_partition (reg : List (Nat × Peer)) :
    countName reg "queued" + countName reg "connecting" + countName reg "live" +
      countName reg "dead" + countName reg "not needed" = reg.length := by
  induction reg with
  | nil => rfl
  | cons kv rest ih =>
    obtain ⟨a, st, c⟩ := kv
    rw [countName_cons, countName_cons, countName_cons, countName_cons, countName_cons]
    cases st <;> simp [PeerState.name] <;> omega


/-! ## Lemmas for the aggregate per-state counters (C6) -/

theorem counter_queued (agg : AggregatePeerStatsAtomic) :
    agg.counter .queued = agg.queued := rfl

theorem counter_connecting (agg : AggregatePeerStatsAtomic) :
    agg.counter .connecting = agg.connecting := rfl

theorem counter_live (agg : AggregatePeerStatsAtomic) (l : LivePeerState) :
    agg.counter (.live l) = agg.live := rfl

theorem counter_dead (agg : AggregatePeerStatsAtomic) :
    agg.counter .dead = agg.dead := rfl

theorem counter_not_needed (agg : AggregatePeerStatsAtomic) :
    agg.counter .notNeeded = agg.not_needed := rfl

theorem counter_inc_eq (agg : AggregatePeerStatsAtomic) (st s : PeerState)
    (h : st.name = s.name) :
    (agg.inc st).counter s = addU32 (agg.counter s) 1 := by
  cases st <;> cases s <;>
    first
      | (simp only [PeerState.name] at h; exact absurd h (by decide))
      | rw [AggregatePeerStatsAtomic.inc, AggregatePeerStatsAtomic.counter,
          AggregatePeerStatsAtomic.counter]

theorem counter_inc_ne (agg : AggregatePeerStatsAtomic) (st s : PeerState)
    (h : st.name ≠ s.name) :
    (agg.inc st).counter s = agg.counter s := by
  cases st <;> cases s <;>
    first
      | (exfalso; apply h; rfl)
      | rw [AggregatePeerStatsAtomic.inc, AggregatePeerStatsAtomic.counter,
          AggregatePeerStatsAtomic.counter]

theorem counter_dec_eq (agg : AggregatePeerStatsAtomic) (st s : PeerState)
    (h : st.name = s.name) :
    (agg.dec st).counter s = subU32 (agg.counter s) 1 := by
  cases st <;> cases s <;>
    first
      | (simp only [PeerState.name] at h; exact absurd h (by decide))
      | rw [AggregatePeerStatsAtomic.dec, AggregatePeerStatsAtomic.counter,
          AggregatePeerStatsAtomic.counter]

theorem counter_dec_ne (agg : AggregatePeerStatsAtomic) (st s : PeerState)
    (h : st.name ≠ s.name) :
    (agg.dec st).counter s = agg.counter s := by
  cases st <;> cases s <;>
    first
      | (exfalso; apply h; rfl)
      | rw [AggregatePeerStatsAtomic.dec, AggregatePeerStatsAtomic.counter,
          AggregatePeerStatsAtomic.counter]

theorem alistLookup_decomp {α : Type} (addr : Nat) (l : List (Nat × α)) (p : α)
    (h : alistLookup addr l = some p) :
    ∃ pre post, l = pre ++ (addr, p) :: post ∧
      ∀ kv ∈ pre, (kv.1 == addr) = false := by
  unfold alistLookup at h
  cases hf : l.find? (fun kv => kv.1 == addr) with
  | none => rw [hf] at h; simp at h
  | some kv0 =>
    rw [hf] at h
    simp at h
    obtain ⟨pre, post, heq, hfail, hhit⟩ := find?_first _ _ _ hf
    have h1 : kv0.1 = addr := by simpa using hhit
    have h2 : kv0 = (addr, p) := by
      obtain ⟨k1, k2⟩ := kv0
      simp only [Prod.mk.injEq]
      exact ⟨h1, h⟩
    refine ⟨pre, post, ?_, hfail⟩
    rw [heq, h2]

theorem nodup_keys_post {α : Type} (addr : Nat) (p : α)
    (pre post : List (Nat × α))
    (hnodup : (alistKeys (pre ++ (addr, p) :: post)).Nodup) :
    ∀ kv ∈ post, (kv.1 == addr) = false := by
  unfold alistKeys at hnodup
  rw [List.map_append, List.map_cons] at hnodup
  have hsub : (addr :: post.map (·.1)).Nodup :=
    hnodup.sublist (List.sublist_append_right ..)
  have hnm : addr ∉ post.map (·.1) := (List.nodup_cons.mp hsub).1
  intro kv hkv
  have hmem : kv.1 ∈ post.map (·.1) := List.mem_map.mpr ⟨kv, hkv, rfl⟩
  simp only [beq_eq_false_iff_ne, ne_eq]
  intro heq
  exact hnm (heq ▸ hmem)

theorem registryModify_decomp (pre post : List (Nat × Peer)) (addr : Nat)
    (p : Peer) (f : Peer → Peer)
    (hpre : ∀ kv ∈ pre, (kv.1 == addr) = false)
    (hpost : ∀ kv ∈ post, (kv.1 == addr) = false) :
    registryModify (pre ++ (addr, p) :: post) addr f = pre ++ (addr, f p) :: post := by
  unfold registryModify
  rw [List.map_append, List.map_cons]
  have h1 : pre.map (fun kv => if kv.1 == addr then (kv.1, f kv.2) else kv) = pre := by
    have hcongr : ∀ kv ∈ pre,
        (if kv.1 == addr then (kv.1, f kv.2) else kv) = id kv := by
      intro kv hkv
      rw [if_neg (by simpa using hpre kv hkv)]
      rfl
    rw [List.map_congr_left hcongr, List.map_id]
  have h2 : post.map (fun kv => if kv.1 == addr then (kv.1, f kv.2) else kv) = post := by
    have hcongr : ∀ kv ∈ post,
        (if kv.1 == addr then (kv.1, f kv.2) else kv) = id kv := by
      intro kv hkv
      rw [if_neg (by simpa using hpost kv hkv)]
      rfl
    rw [List.map_congr_left hcongr, List.map_id]
  rw [h1, h2]
  simp

theorem alistErase_decomp {α : Type} (pre post : List (Nat × α)) (addr : Nat)
    (p : α)
    (hpre : ∀ kv ∈ pre, (kv.1 == addr) = false)
    (hpost : ∀ kv ∈ post, (kv.1 == addr) = false) :
    alistErase addr (pre ++ (addr, p) :: post) = pre ++ post := by
  unfold alistErase
  rw [List.filter_append, List.filter_cons]
  have h1 : pre.filter (fun kv => kv.1 != addr) = pre :=
    List.filter_eq_self.mpr (fun kv hkv => by simpa using hpre kv hkv)
  have h2 : post.filter (fun kv => kv.1 != addr) = post :=
    List.filter_eq_self.mpr (fun kv hkv => by simpa using hpost kv hkv)
  rw [h1, h2]
  simp

theorem alistLookup_mem {α : Type} (addr : Nat) (l : List (Nat × α)) (p : α)
    (h : alistLookup addr l = some p) : ∃ kv ∈ l, kv.2 = p := by
  unfold alistLookup at h
  cases hf : l.find? (fun kv => kv.1 == addr) with
  | none => rw [hf] at h; simp at h
  | some kv =>
    rw [hf] at h
    exact ⟨kv, List.mem_of_find?_eq_some hf, by simpa using h⟩

theorem countName_pos (reg : List (Nat × Peer)) (addr : Nat) (p : Peer)
    (h : alistLookup addr reg = some p) : 1 ≤ countName reg p.state.name := by
  obtain ⟨kv, hmem, hkv⟩ := alistLookup_mem addr reg p h
  have hf : kv ∈ reg.filter (fun kv => kv.2.state.name == p.state.name) :=
    List.mem_filter.mpr ⟨hmem, by rw [hkv]; simp⟩
  exact List.length_pos_of_mem hf

theorem counterinv_sum (reg : List (Nat × Peer)) (agg : AggregatePeerStatsAtomic)
    (hinv : CounterInv reg agg) : sumFive agg = reg.length := by
  have hq := hinv .queued
  have hc := hinv .connecting
  have hlv := hinv (.live (LivePeerState.new 0))
  have hd := hinv .dead
  have hnn := hinv .notNeeded
  rw [counter_queued] at hq
  rw [counter_connecting] at hc
  rw [counter_live] at hlv
  rw [counter_dead] at hd
  rw [counter_not_needed] at hnn
  simp only [PeerState.name] at hq hc hlv hd hnn
  rw [sumFive, hq, hc, hlv, hd, hnn]
  exact countName_partition reg

theorem sumFive_dec (agg : AggregatePeerStatsAtomic) (old : PeerState)
    (h1 : 1 ≤ agg.counter old) (h2 : agg.counter old < U32_MOD) :
    sumFive (agg.dec old) + 1 = sumFive agg := by
  cases old with
  | queued =>
    rw [counter_queued] at h1 h2
    rw [AggregatePeerStatsAtomic.dec, sumFive, sumFive]
    dsimp only
    rw [subU32_eq h1 h2]
    omega
  | connecting =>
    rw [counter_connecting] at h1 h2
    rw [AggregatePeerStatsAtomic.dec, sumFive, sumFive]
    dsimp only
    rw [subU32_eq h1 h2]
    omega
  | live l =>
    rw [counter_live] at h1 h2
    rw [AggregatePeerStatsAtomic.dec, sumFive, sumFive]
    dsimp only
    rw [subU32_eq h1 h2]
    omega
  | dead =>
    rw [counter_dead] at h1 h2
    rw [AggregatePeerStatsAtomic.dec, sumFive, sumFive]
    dsimp only
    rw [subU32_eq h1 h2]
    omega
  | notNeeded =>
    rw [counter_not_needed] at h1 h2
    rw [AggregatePeerStatsAtomic.dec, sumFive, sumFive]
    dsimp only
    rw [subU32_eq h1 h2]
    omega

theorem dec_transient_undercount (reg : List (Nat × Peer))
    (agg : AggregatePeerStatsAtomic) (addr : Nat) (p : Peer)
    (hlen : reg.length < U32_MOD) (hinv : CounterInv reg agg)
    (hl : alistLookup addr reg = some p) :
    sumFive (agg.dec p.state) + 1 = reg.length := by
  have hc1 : 1 ≤ countName reg p.state.name := countName_pos reg addr p hl
  have h1 : 1 ≤ agg.counter p.state := by rw [hinv p.state]; exact hc1
  have h2 : agg.counter p.state < U32_MOD := by
    rw [hinv p.state]
    exact lt_of_le_of_lt (countName_le reg p.state.name) hlen
  rw [sumFive_dec agg p.state h1 h2]
  exact counterinv_sum reg agg hinv

theorem set_state_counterinv (sys : System) (addr : Nat) (new : PeerState)
    (hnodup : (alistKeys sys.registry).Nodup)
    (hlen : sys.registry.length < U32_MOD)
    (hinv : CounterInv sys.registry sys.agg) :
    CounterInv (sys_set_state sys addr new).1.registry
      (sys_set_state sys addr new).1.agg := by
  unfold sys_set_state
  cases hl : alistLookup addr sys.registry with
  | none => exact hinv
  | some p =>
    obtain ⟨pre, post, hdecomp, hpre⟩ := alistLookup_decomp addr sys.registry p hl
    have hpost : ∀ kv ∈ post, (kv.1 == addr) = false := by
      apply nodup_keys_post addr p
      rw [← hdecomp]
      exact hnodup
    intro s
    have hsplit : countName sys.registry s.name =
        countName pre s.name +
          ((if p.state.name == s.name then 1 else 0) + countName post s.name) := by
      rw [hdecomp, countName_append, countName_cons]
    have hlsplit : pre.length + post.length + 1 = sys.registry.length := by
      rw [hdecomp]
      simp only [List.length_append, List.length_cons]
      omega
    have hcle : countName sys.registry s.name ≤ sys.registry.length :=
      countName_le sys.registry s.name
    have hpreLe : countName pre s.name ≤ pre.length := countName_le pre s.name
    have hpostLe : countName post s.name ≤ post.length := countName_le post s.name
    dsimp only
    rw [AggregatePeerStatsAtomic.incdec]
    rw [hdecomp, registryModify_decomp pre post addr p _ hpre hpost]
    rw [countName_append, countName_cons]
    dsimp only
    by_cases hn : new.name = s.name
    · rw [counter_inc_eq _ _ _ hn]
      rw [if_pos (beq_iff_eq.mpr hn)]
      by_cases ho : p.state.name = s.name
      · rw [counter_dec_eq _ _ _ ho, hinv s]
        rw [if_pos (beq_iff_eq.mpr ho)] at hsplit
        have hc1 : 1 ≤ countName sys.registry s.name := by omega
        rw [subU32_eq hc1 (lt_of_le_of_lt hcle hlen)]
        rw [addU32_eq (by omega)]
        omega
      · rw [counter_dec_ne _ _ _ ho, hinv s]
        rw [if_neg (by simpa using ho)] at hsplit
        rw [addU32_eq (by omega)]
        omega
    · rw [counter_inc_ne _ _ _ hn]
      rw [if_neg (by simpa using hn)]
      by_cases ho : p.state.name = s.name
      · rw [counter_dec_eq _ _ _ ho, hinv s]
        rw [if_pos (beq_iff_eq.mpr ho)] at hsplit
        have hc1 : 1 ≤ countName sys.registry s.name := by omega
        rw [subU32_eq hc1 (lt_of_le_of_lt hcle hlen)]
        omega
      · rw [counter_dec_ne _ _ _ ho, hinv s]
        rw [if_neg (by simpa using ho)] at hsplit
        omega

theorem add_if_not_seen_counterinv (sys : System) (addr : Nat)
    (hlen : sys.registry.length + 1 < U32_MOD)
    (hinv : CounterInv sys.registry sys.agg) :
    CounterInv (add_if_not_seen sys addr).1.registry
      (add_if_not_seen sys addr).1.agg := by
  unfold add_if_not_seen
  cases hl : alistLookup addr sys.registry with
  | some p => exact hinv
  | none =>
    intro s
    have hcle : countName sys.registry s.name ≤ sys.registry.length :=
      countName_le sys.registry s.name
    dsimp only
    rw [countName_cons]
    dsimp only
    have hdef : (((default : Peer)).state.name == s.name) = ("queued" == s.name) := rfl
    rw [hdef]
    cases s with
    | queued =>
      have hq := hinv .queued
      rw [counter_queued] at hq
      rw [counter_queued]
      dsimp only
      rw [if_pos (by simp only [PeerState.name]; decide), hq]
      rw [addU32_eq (by omega)]
      omega
    | connecting =>
      have hc := hinv .connecting
      rw [counter_connecting] at hc
      rw [counter_connecting]
      dsimp only
      rw [if_neg (by simp only [PeerState.name]; decide), hc]
      omega
    | live l =>
      have hlv := hinv (.live l)
      rw [counter_live] at hlv
      rw [counter_live]
      dsimp only
      rw [if_neg (by simp only [PeerState.name]; decide), hlv]
      omega
    | dead =>
      have hd := hinv .dead
      rw [counter_dead] at hd
      rw [counter_dead]
      dsimp only
      rw [if_neg (by simp only [PeerState.name]; decide), hd]
      omega
    | notNeeded =>
      have hnn := hinv .notNeeded
      rw [counter_not_needed] at hnn
      rw [counter_not_needed]
      dsimp only
      rw [if_neg (by simp only [PeerState.name]; decide), hnn]
      omega

theorem add_peer_registry_agg (sys : System) (addr : Nat) :
    (add_peer_if_not_seen sys addr).1.registry =
        (add_if_not_seen sys addr).1.registry ∧
      (add_peer_if_not_seen sys addr).1.agg = (add_if_not_seen sys addr).1.agg := by
  unfold add_peer_if_not_seen
  dsimp only
  by_cases h : (add_if_not_seen sys addr).2 = true
  · rw [if_pos h]
    exact ⟨rfl, rfl⟩
  · rw [if_neg h]
    exact ⟨rfl, rfl⟩

theorem add_if_not_seen_queued_bump (sys : System) (addr : Nat)
    (h : (add_if_not_seen sys addr).2 = true) :
    (add_if_not_seen sys addr).1.agg.queued = addU32 sys.agg.queued 1 := by
  unfold add_if_not_seen at h ⊢
  cases hl : alistLookup addr sys.registry with
  | some p =>
    rw [hl] at h
    simp at h
  | none => rfl

theorem add_peer_snd (sys : System) (addr : Nat) :
    (add_peer_if_not_seen sys addr).2 = (add_if_not_seen sys addr).2 := by
  unfold add_peer_if_not_seen
  dsimp only
  by_cases h : (add_if_not_seen sys addr).2 = true
  · rw [if_pos h, h]
  · rw [if_neg h]

theorem drop_peer_counterinv (sys : System) (addr : Nat) (p : Peer)
    (hnodup : (alistKeys sys.registry).Nodup)
    (hlen : sys.registry.length < U32_MOD)
    (hinv : CounterInv sys.registry sys.agg) :
    ((drop_peer sys addr).2 = some p →
        (drop_peer sys addr).1.agg.counter p.state =
          subU32 (sys.agg.counter p.state) 1) ∧
      CounterInv (drop_peer sys addr).1.registry (drop_peer sys addr).1.agg := by
  unfold drop_peer
  cases hl : alistLookup addr sys.registry with
  | none =>
    exact ⟨fun h => absurd h (by simp), hinv⟩
  | some p0 =>
    obtain ⟨pre, post, hdecomp, hpre⟩ := alistLookup_decomp addr sys.registry p0 hl
    have hpost : ∀ kv ∈ post, (kv.1 == addr) = false := by
      apply nodup_keys_post addr p0
      rw [← hdecomp]
      exact hnodup
    constructor
    · intro h
      have hp : p0 = p := by simpa using h
      subst hp
      exact counter_dec_eq sys.agg p0.state p0.state rfl
    · intro s
      dsimp only
      rw [hdecomp, alistErase_decomp pre post addr p0 hpre hpost, countName_append]
      have hsplit : countName sys.registry s.name =
          countName pre s.name +
            ((if p0.state.name == s.name then 1 else 0) + countName post s.name) := by
        rw [hdecomp, countName_append, countName_cons]
      have hcle : countName sys.registry s.name ≤ sys.registry.length :=
        countName_le sys.registry s.name
      by_cases ho : p0.state.name = s.name
      · rw [counter_dec_eq _ _ _ ho, hinv s]
        rw [if_pos (beq_iff_eq.mpr ho)] at hsplit
        have hc1 : 1 ≤ countName sys.registry s.name := by omega
        rw [subU32_eq hc1 (lt_of_le_of_lt hcle hlen)]
        omega
      · rw [counter_dec_ne _ _ _ ho, hinv s]
        rw [if_neg (by simpa using ho)] at hsplit
        omega

/-- C6: every peer state transition updates the aggregate per-state counters
by decrementing the old state's counter and then incrementing the new
state's counter (`incdec` is dec-then-inc, so the transient mid-transition
sum undercounts the registry by exactly one and never overcounts); registry
insertion (`add_peer_if_not_seen`) increments the `queued` counter and
`drop_peer` decrements the counter of the removed peer's current state; each
of these registry operations preserves the agreement between the five
aggregate state counters and the per-state registry census, and under that
agreement the sum of the five counters equals the number of registry
entries. -/
theorem aggregate_counter_agreement :
    (∀ (agg : AggregatePeerStatsAtomic) (old new : PeerState),
        agg.incdec old new = (agg.dec old).inc new) ∧
    (∀ (reg : List (Nat × Peer)) (agg : AggregatePeerStatsAtomic)
        (addr : Nat) (p : Peer),
        reg.length < U32_MOD → CounterInv reg agg →
        alistLookup addr reg = some p →
        sumFive (agg.dec p.state) + 1 = reg.length) ∧
    (∀ (sys : System) (addr : Nat) (new : PeerState),
        (alistKeys sys.registry).Nodup → sys.registry.length < U32_MOD →
        CounterInv sys.registry sys.agg →
        CounterInv (sys_set_state sys addr new).1.registry
          (sys_set_state sys addr new).1.agg) ∧
    (∀ (sys : System) (addr : Nat),
        sys.registry.length + 1 < U32_MOD →
        CounterInv sys.registry sys.agg →
        ((add_peer_if_not_seen sys addr).2 = true →
            (add_peer_if_not_seen sys addr).1.agg.queued =
              addU32 sys.agg.queued 1) ∧
          CounterInv (add_peer_if_not_seen sys addr).1.registry
            (add_peer_if_not_seen sys addr).1.agg) ∧
    (∀ (sys : System) (addr : Nat) (p : Peer),
        (alistKeys sys.registry).Nodup → sys.registry.length < U32_MOD →
        CounterInv sys.registry sys.agg →
        ((drop_peer sys addr).2 = some p →
            (drop_peer sys addr).1.agg.counter p.state =
              subU32 (sys.agg.counter p.state) 1) ∧
          CounterInv (drop_peer sys addr).1.registry
            (drop_peer sys addr).1.agg) ∧
    (∀ (reg : List (Nat × Peer)) (agg : AggregatePeerStatsAtomic),
        CounterInv reg agg → sumFive agg = reg.length) := by
  refine ⟨fun agg old new => rfl,
    fun reg agg addr p hlen hinv hl =>
      dec_transient_undercount reg agg addr p hlen hinv hl,
    fun sys addr new hnodup hlen hinv =>
      set_state_counterinv sys addr new hnodup hlen hinv,
    fun sys addr hlen hinv => ?_,
    fun sys addr p hnodup hlen hinv =>
      drop_peer_counterinv sys addr p hnodup hlen hinv,
    fun reg agg hinv => counterinv_sum reg agg hinv⟩
  constructor
  · intro h
    rw [(add_peer_registry_agg sys addr).2]
    exact add_if_not_seen_queued_bump sys addr ((add_peer_snd sys addr) ▸ h)
  · rw [(add_peer_registry_agg sys addr).1, (add_peer_registry_agg sys addr).2]
    exact add_if_not_seen_counterinv sys addr hlen hinv

theorem aggregate_counter_agreement_witness :
    (CounterInv exSys.registry exSys.agg ∧
      CounterInv (sys_set_state exSys 5 .dead).1.registry
        (sys_set_state exSys 5 .dead).1.agg) ∧
    CounterInv (add_peer_if_not_seen exSys 9).1.registry
      (add_peer_if_not_seen exSys 9).1.agg ∧
    CounterInv (drop_peer exSys 5).1.registry (drop_peer exSys 5).1.agg ∧
    sumFive exSys.agg = exSys.registry.length :=
  ⟨⟨by intro s; cases s <;> rfl,
    aggregate_counter_agreement.2.2.1 exSys 5 .dead (by decide) (by decide)
      (by intro s; cases s <;> rfl)⟩,
   (aggregate_counter_agreement.2.2.2.1 exSys 9 (by decide)
      (by intro s; cases s <;> rfl)).2,
   (aggregate_counter_agreement.2.2.2.2.1 exSys 5 ⟨.live exLive, default⟩
      (by decide) (by decide) (by intro s; cases s <;> rfl)).2,
   aggregate_counter_agreement.2.2.2.2.2 exSys.registry exSys.agg
      (by intro s; cases s <;> rfl)⟩
